import Mathlib

/-!
# Shallow embedding of the graph-algorithms engine

This file embeds the graph algorithms of `src/utils/graphAlgorithms.ts`
(bfs, dfs, findConnectedComponents, findArticulationPoints,
findBiconnectedComponents, findStronglyConnectedComponents, maxFlow)
together with the data model of `src/types/graph.ts`, and proves or
refutes the specification claims about them.

Modelling conventions:
* Node ids are `Nat` (the UI parses them with `parseInt`; every claim is
  id-agnostic).  Edge capacities are `Int`, `Option` for the optional field.
* A JavaScript `Map` is modelled as an insertion-ordered association list
  (`List (key × value)`): `Map.get` reads the first matching key,
  `Map.set` overwrites the first matching key in place or appends a fresh
  key at the end, exactly like the JS semantics for key update/insert.
* A JavaScript `Set` of numbers is modelled as a `Finset Nat` where only
  membership matters, and as an insertion-ordered duplicate-free `List Nat`
  where iteration order matters (e.g. the articulation-point set that is
  converted back to an array).
* Unbounded `while`/recursion is modelled with explicit fuel.  `none` (or
  an unchanged state at fuel 0) marks a computation that has not finished
  within the given fuel; the top-level entry points are instantiated with a
  fuel that provably suffices wherever a claim needs the real,
  fuel-independent behaviour.
* The non-null assertions (`!`) of the TypeScript code are modelled with
  default values; every theorem that relies on such a lookup carries the
  well-formedness hypotheses under which the TypeScript assertion cannot
  fail, so the default is never exercised.
-/

namespace VGP

/-- `Map.get`: first binding of the key, if any. -/
def getA {α β : Type} [DecidableEq α] : List (α × β) → α → Option β
  | [], _ => none
  | (k, v) :: rest, a => if k = a then some v else getA rest a

/-- `Map.set`: overwrite the first binding of the key in place, or append a
fresh binding at the end — the JavaScript `Map` update/insert semantics. -/
def setA {α β : Type} [DecidableEq α] : List (α × β) → α → β → List (α × β)
  | [], a, b => [(a, b)]
  | (k, v) :: rest, a, b =>
    if k = a then (k, b) :: rest else (k, v) :: setA rest a b

/-- Keys of an association list, in insertion order. -/
def keysA {α β : Type} (l : List (α × β)) : List α := l.map Prod.fst

/-- `src/types/graph.ts`: `GraphEdge` (field `from` is a Lean keyword, so it
is rendered `efrom`; `to` likewise becomes `eto`). -/
structure GraphEdge where
  efrom : Nat
  eto : Nat
  capacity : Option Int
deriving DecidableEq, Repr

/-- `src/types/graph.ts`: `GraphData`.  `adjacencyList` is the JS `Map`
from node id to neighbour list. -/
structure GraphData where
  isDirected : Bool
  adjacencyList : List (Nat × List Nat)
  edges : List GraphEdge
deriving DecidableEq, Repr

/-- `graph.adjacencyList.get(node) || []`. -/
def GraphData.neighbors (g : GraphData) (node : Nat) : List Nat :=
  (getA g.adjacencyList node).getD []

/-- `Array.from(graph.adjacencyList.keys())`. -/
def GraphData.nodes (g : GraphData) : List Nat := keysA g.adjacencyList

/-- Every node id occurring anywhere in the adjacency list (keys and
neighbour entries); used only to size the fuel of the embedded loops. -/
def GraphData.allIds (g : GraphData) : Finset Nat :=
  g.adjacencyList.foldr
    (fun p acc => insert p.1 (p.2.foldr insert acc)) ∅

/-- `src/types/graph.ts`: `TraversalStep` (`visited` is the snapshot set,
`component` is the optional tag, never set by `bfs`/`dfs`). -/
structure TraversalStep where
  node : Nat
  visited : Finset Nat
  component : Option Nat
deriving DecidableEq

/-! ## Traversal engine: `bfs` and `dfs` -/

/-- One pass of `bfs`'s inner `for (const neighbor of neighbors)` loop:
mark-and-enqueue each not-yet-visited neighbour. -/
def bfsScan (visited : Finset Nat) (queue : List Nat) (ns : List Nat) :
    Finset Nat × List Nat :=
  ns.foldl
    (fun vq nb => if nb ∈ vq.1 then vq else (insert nb vq.1, vq.2 ++ [nb]))
    (visited, queue)

/-- The `while (queue.length > 0)` loop of `bfs`, with explicit fuel.
Each iteration dequeues one node, emits the step with the *current*
visited snapshot, and then marks-and-enqueues its unvisited neighbours. -/
def bfsLoop (g : GraphData) :
    Nat → Finset Nat → List Nat → List TraversalStep → List TraversalStep
  | 0, _, _, steps => steps
  | fuel + 1, visited, queue, steps =>
    match queue with
    | [] => steps
    | node :: rest =>
      let steps' := steps ++ [⟨node, visited, none⟩]
      let vq := bfsScan visited rest (g.neighbors node)
      bfsLoop g fuel vq.1 vq.2 steps'

/-- `bfs(graph, startNode)` of `graphAlgorithms.ts`.  The fuel bounds the
number of dequeues: every enqueued node is freshly marked visited and all
marked nodes lie in `allIds ∪ {start}`, so `card + 1` dequeues suffice. -/
def bfs (g : GraphData) (startNode : Nat) : List TraversalStep :=
  bfsLoop g ((insert startNode g.allIds).card + 1)
    {startNode} [startNode] []

/-- `dfsHelper` of `dfs`: mark the node, emit the step, then recurse into
each still-unvisited neighbour in adjacency order.  Fuel bounds the
recursion depth (every call marks a fresh node). -/
def dfsVisit (g : GraphData) :
    Nat → Nat → Finset Nat × List TraversalStep → Finset Nat × List TraversalStep
  | 0, _, s => s
  | fuel + 1, node, (visited, steps) =>
    let visited' := insert node visited
    let steps' := steps ++ [⟨node, visited', none⟩]
    (g.neighbors node).foldl
      (fun s nb => if nb ∈ s.1 then s else dfsVisit g fuel nb s)
      (visited', steps')

/-- `dfs(graph, startNode)` of `graphAlgorithms.ts`. -/
def dfs (g : GraphData) (startNode : Nat) : List TraversalStep :=
  (dfsVisit g ((insert startNode g.allIds).card + 1) startNode (∅, [])).2

/-! ## Component finder: `findConnectedComponents` -/

/-- `component.sort((a, b) => a - b)`: ascending numeric sort. -/
def sortNat (l : List Nat) : List Nat := l.mergeSort (· ≤ ·)

/-- The inner `while (queue.length > 0)` BFS of `findConnectedComponents`:
dequeue, append to the component, mark-and-enqueue unvisited neighbours. -/
def ccLoop (g : GraphData) :
    Nat → Finset Nat → List Nat → List Nat → Finset Nat × List Nat
  | 0, visited, _, comp => (visited, comp)
  | fuel + 1, visited, queue, comp =>
    match queue with
    | [] => (visited, comp)
    | current :: rest =>
      let comp' := comp ++ [current]
      let vq := bfsScan visited rest (g.neighbors current)
      ccLoop g fuel vq.1 vq.2 comp'

/-- `findConnectedComponents(graph)` of `graphAlgorithms.ts`: iterate the
keys in insertion order; each unvisited key seeds a BFS whose collected
nodes, sorted ascending, form one component. -/
def findConnectedComponents (g : GraphData) : List (List Nat) :=
  (g.nodes.foldl
    (fun (st : Finset Nat × List (List Nat)) node =>
      if node ∈ st.1 then st
      else
        let vc := ccLoop g (g.allIds.card + 1) (insert node st.1) [node] []
        (vc.1, st.2 ++ [sortNat vc.2]))
    (∅, [])).2

/-! ## Cut-vertex analyzer: `findArticulationPoints` -/

/-- Shared mutable state of `findArticulationPoints`.  `disc`, `low`,
`parent` are JS `Map`s (association lists); the articulation-point `Set`
is an insertion-ordered duplicate-free list; `bridges` is the emitted
array of pairs. -/
structure APState where
  visited : Finset Nat
  disc : List (Nat × Nat)
  low : List (Nat × Nat)
  parent : List (Nat × Option Nat)
  points : List Nat
  bridges : List (Nat × Nat)
  time : Nat
deriving DecidableEq

/-- `articulationPoints.add(u)` on the JS `Set`: append if absent. -/
def addPoint (pts : List Nat) (u : Nat) : List Nat :=
  if u ∈ pts then pts else pts ++ [u]

/-- `disc.get(x)!` / `low.get(x)!` (modelled with default 0; the lookups
are only performed on already-visited nodes, whose entries exist). -/
def getNat (m : List (Nat × Nat)) (x : Nat) : Nat := (getA m x).getD 0

/-- `parent.get(u)`: `some none` is an explicit `null` (DFS root),
`some (some p)` a real parent, `none` an absent entry (never happens for a
visited node). -/
def getParent (m : List (Nat × Option Nat)) (u : Nat) : Option (Option Nat) :=
  getA m u

/-- `dfsAP(u)` of `findArticulationPoints`, fuel bounding the recursion
depth.  The fold over the neighbour list carries the state together with
the local `children` counter. -/
def dfsAP (g : GraphData) : Nat → Nat → APState → APState
  | 0, _, s => s
  | fuel + 1, u, s =>
    let s := { s with
      visited := insert u s.visited
      disc := setA s.disc u s.time
      low := setA s.low u s.time
      time := s.time + 1 }
    (((g.neighbors u).foldl
      (fun (sc : APState × Nat) v =>
        let s := sc.1
        if v ∉ s.visited then
          let children := sc.2 + 1
          let s := { s with parent := setA s.parent v (some u) }
          let s := dfsAP g fuel v s
          let s := { s with
            low := setA s.low u (min (getNat s.low u) (getNat s.low v)) }
          let s :=
            if getParent s.parent u = some none ∧ children > 1 then
              { s with points := addPoint s.points u }
            else s
          let s :=
            if getParent s.parent u ≠ some none ∧
                getNat s.low v ≥ getNat s.disc u then
              { s with points := addPoint s.points u }
            else s
          let s :=
            if getNat s.low v > getNat s.disc u then
              { s with bridges := s.bridges ++ [(u, v)] }
            else s
          (s, children)
        else
          if getParent s.parent u = some (some v) then (s, sc.2)
          else
            ({ s with
              low := setA s.low u (min (getNat s.low u) (getNat s.disc v)) },
              sc.2))
      (s, 0))).1

/-- `findArticulationPoints(graph)` of `graphAlgorithms.ts`: run `dfsAP`
from every unvisited key (with `parent` set to `null` first); the result is
`(Array.from(points), bridges)`. -/
def findArticulationPoints (g : GraphData) : List Nat × List (Nat × Nat) :=
  let s := g.nodes.foldl
    (fun (s : APState) node =>
      if node ∈ s.visited then s
      else dfsAP g (g.allIds.card + 1) node
        { s with parent := setA s.parent node none })
    ⟨∅, [], [], [], [], [], 0⟩
  (s.points, s.bridges)

/-! ## Biconnected partitioner: `findBiconnectedComponents` -/

/-- State of `findBiconnectedComponents`: the low-link data plus the edge
stack (top of stack at the head) and the emitted components. -/
structure BCCState where
  visited : Finset Nat
  disc : List (Nat × Nat)
  low : List (Nat × Nat)
  parent : List (Nat × Option Nat)
  stack : List (Nat × Nat)
  comps : List (List Nat)
  time : Nat
deriving DecidableEq

/-- The `do { edge = stack.pop(); ... } while (edge && edge ≠ (u,v))` loop:
pop edges, collecting their endpoints, until the edge `(u, v)` (inclusive)
or the stack is exhausted.  Endpoint order is irrelevant: the collected
ids are deduplicated and sorted before emission. -/
def popUntil : List (Nat × Nat) → Nat → Nat → List (Nat × Nat) × List Nat
  | [], _, _ => ([], [])
  | (a, b) :: rest, u, v =>
    if a = u ∧ b = v then (rest, [a, b])
    else
      let r := popUntil rest u v
      (r.1, a :: b :: r.2)

/-- `Array.from(new Set(ids)).sort((a, b) => a - b)`. -/
def sortedDedup (ids : List Nat) : List Nat := sortNat ids.dedup

/-- `dfsBCC(u)` of `findBiconnectedComponents`, fuel bounding the
recursion depth. -/
def dfsBCC (g : GraphData) : Nat → Nat → BCCState → BCCState
  | 0, _, s => s
  | fuel + 1, u, s =>
    let s := { s with
      visited := insert u s.visited
      disc := setA s.disc u s.time
      low := setA s.low u s.time
      time := s.time + 1 }
    (((g.neighbors u).foldl
      (fun (sc : BCCState × Nat) v =>
        let s := sc.1
        if v ∉ s.visited then
          let children := sc.2 + 1
          let s := { s with
            parent := setA s.parent v (some u)
            stack := (u, v) :: s.stack }
          let s := dfsBCC g fuel v s
          let s := { s with
            low := setA s.low u (min (getNat s.low u) (getNat s.low v)) }
          let s :=
            if (getParent s.parent u = some none ∧ children > 1) ∨
                (getParent s.parent u ≠ some none ∧
                  getNat s.low v ≥ getNat s.disc u) then
              let r := popUntil s.stack u v
              { s with stack := r.1, comps := s.comps ++ [sortedDedup r.2] }
            else s
          (s, children)
        else
          if getParent s.parent u ≠ some (some v) ∧
              getNat s.disc v < getNat s.disc u then
            ({ s with
              stack := (u, v) :: s.stack
              low := setA s.low u (min (getNat s.low u) (getNat s.disc v)) },
              sc.2)
          else (s, sc.2))
      (s, 0))).1

/-- `findBiconnectedComponents(graph)` of `graphAlgorithms.ts`: run
`dfsBCC` from each unvisited key and drain any leftover stack into one
final component for that DFS tree. -/
def findBiconnectedComponents (g : GraphData) : List (List Nat) :=
  (g.nodes.foldl
    (fun (s : BCCState) node =>
      if node ∈ s.visited then s
      else
        let s := dfsBCC g (g.allIds.card + 1) node
          { s with parent := setA s.parent node none }
        if s.stack ≠ [] then
          { s with
            stack := []
            comps := s.comps ++
              [sortedDedup (s.stack.foldr (fun e acc => e.1 :: e.2 :: acc) [])] }
        else s)
    ⟨∅, [], [], [], [], [], 0⟩).comps

/-! ## Strong-component finder: `findStronglyConnectedComponents` -/

/-- First Kosaraju pass `dfs1`: post-order push onto the finishing stack.
The state is `(visited, stack)`; the stack grows at the end (array push). -/
def sccDfs1 (g : GraphData) : Nat → Nat → Finset Nat × List Nat → Finset Nat × List Nat
  | 0, _, s => s
  | fuel + 1, node, (visited, stack) =>
    let st := (g.neighbors node).foldl
      (fun s nb => if nb ∈ s.1 then s else sccDfs1 g fuel nb s)
      (insert node visited, stack)
    (st.1, st.2 ++ [node])

/-- Transpose construction: seed every key with `[]`, then for each
adjacency entry `(node, neighbors)` push `node` onto each neighbour's
reversed list (`transposed.get(neighbor) || []` then `set`). -/
def sccTranspose (g : GraphData) : List (Nat × List Nat) :=
  g.adjacencyList.foldl
    (fun t p =>
      p.2.foldl
        (fun t nb => setA t nb (((getA t nb).getD []) ++ [p.1]))
        t)
    (g.nodes.map (fun n => (n, ([] : List Nat))))

/-- Second Kosaraju pass `dfs2` over the transpose, collecting one
component. -/
def sccDfs2 (t : List (Nat × List Nat)) :
    Nat → Nat → Finset Nat × List Nat → Finset Nat × List Nat
  | 0, _, s => s
  | fuel + 1, node, (visited, comp) =>
    ((getA t node).getD []).foldl
      (fun s nb => if nb ∈ s.1 then s else sccDfs2 t fuel nb s)
      (insert node visited, comp ++ [node])

/-- The `while (stack.length > 0)` loop of the second pass: pop the
finishing stack (from the end) and start `dfs2` at unvisited nodes. -/
def sccCollect (t : List (Nat × List Nat)) (fuel : Nat) :
    List Nat → Finset Nat → List (List Nat) → List (List Nat)
  | stack, visited, sccs =>
    stack.foldr
      (fun node (st : Finset Nat × List (List Nat)) =>
        if node ∈ st.1 then st
        else
          let vc := sccDfs2 t fuel node (st.1, [])
          (vc.1, st.2 ++ [sortNat vc.2]))
      (visited, sccs) |>.2

/-- `findStronglyConnectedComponents(graph)` of `graphAlgorithms.ts`:
empty result on undirected graphs, otherwise Kosaraju's two-pass DFS. -/
def findStronglyConnectedComponents (g : GraphData) : List (List Nat) :=
  if g.isDirected = false then []
  else
    let fuel := g.allIds.card + 1
    let vs := g.nodes.foldl
      (fun (s : Finset Nat × List Nat) node =>
        if node ∈ s.1 then s else sccDfs1 g fuel node s)
      (∅, [])
    sccCollect (sccTranspose g) fuel vs.2 ∅ []

/-! ## Max-flow solver: `maxFlow`

The residual graph `Map<number, Map<number, number>>` is an association
list of association lists.  The string keys `` `${from}-${to}` `` of the
capacity map biject with the pairs `(from, to)` for `Nat` ids, so the
capacity map is keyed by pairs directly.  JavaScript's `Infinity`
(`let pathFlow = Infinity`) is `⊤` of `WithTop Int`; when the augmenting
path has at least one edge the bottleneck is the finite minimum of the
residuals along it, exactly as in the source.  The outer `while (true)`
loop carries fuel; a `none` result marks a run that never reached the
`break` (the source code loops forever there). -/

/-- `edge.capacity || 1`: `undefined` and `0` fall back to `1`. -/
def capVal (e : GraphEdge) : Int :=
  match e.capacity with
  | none => 1
  | some c => if c = 0 then 1 else c

/-- The capacity map: `capacity.set(`${from}-${to}`, cap || 1)` over the
edge list; a later edge with the same endpoints overwrites the earlier. -/
def buildCapacity (edges : List GraphEdge) : List ((Nat × Nat) × Int) :=
  edges.foldl (fun m e => setA m (e.efrom, e.eto) (capVal e)) []

/-- One inner map of the residual graph. -/
abbrev InnerMap := List (Nat × Int)

/-- The residual graph. -/
abbrev Residual := List (Nat × InnerMap)

/-- `residualGraph.get(u)!.get(v)` with default 0 (for reading residual
capacities; the `!` cannot fail under the well-formedness hypotheses). -/
def getIn (rg : Residual) (u v : Nat) : Int :=
  (getA ((getA rg u).getD []) v).getD 0

/-- `residualGraph.get(u)!.has(v)`. -/
def hasIn (rg : Residual) (u v : Nat) : Bool :=
  (getA ((getA rg u).getD []) v).isSome

/-- `residualGraph.get(u)!.set(v, c)`; a missing outer key would crash the
source (`!`), modelled as a no-op that the hypotheses rule out. -/
def setIn (rg : Residual) (u v : Nat) (c : Int) : Residual :=
  match getA rg u with
  | none => rg
  | some inner => setA rg u (setA inner v c)

/-- Residual-graph construction: one empty inner map per node, then for
each capacity entry a forward residual plus a zero reverse residual when
no reverse entry exists yet. -/
def buildResidual (nodes : List Nat) (cap : List ((Nat × Nat) × Int)) : Residual :=
  cap.foldl
    (fun rg p =>
      let rg := setIn rg p.1.1 p.1.2 p.2
      if hasIn rg p.1.2 p.1.1 then rg else setIn rg p.1.2 p.1.1 0)
    (nodes.map (fun n => (n, ([] : InnerMap))))

/-- Path reconstruction of `bfsPath`:
`while (current !== source) { path.unshift(current); current = parent.get(current)! }`
then `path.unshift(source)`.  Fuel bounds the chain length; a missing
parent entry (source crash) or exhausted fuel (source divergence) gives
`none`. -/
def reconstruct (source : Nat) (parent : List (Nat × Nat)) :
    Nat → Nat → List Nat → Option (List Nat)
  | 0, _, _ => none
  | fuel + 1, current, acc =>
    if current = source then some (source :: acc)
    else
      match getA parent current with
      | none => none
      | some p => reconstruct source parent fuel p (current :: acc)

/-- One scan of `for (const [v, cap] of neighbors.entries())` inside
`bfsPath`: mark, record the parent and enqueue each unvisited neighbour
with positive residual capacity. -/
def bfsPathScan (entries : InnerMap) (u : Nat)
    (st : Finset Nat × List Nat × List (Nat × Nat)) :
    Finset Nat × List Nat × List (Nat × Nat) :=
  entries.foldl
    (fun st p =>
      if p.1 ∉ st.1 ∧ p.2 > 0 then
        (insert p.1 st.1, st.2.1 ++ [p.1], setA st.2.2 p.1 u)
      else st)
    st

/-- The BFS of `bfsPath()`, with fuel.  `some (some p)` is a found path,
`some none` the `return null`, `none` an exhausted fuel (never reached for
the fuel chosen below). -/
def bfsPathLoop (rg : Residual) (source sink : Nat) :
    Nat → Finset Nat → List Nat → List (Nat × Nat) → Option (Option (List Nat))
  | 0, _, _, _ => none
  | fuel + 1, visited, queue, parent =>
    match queue with
    | [] => some none
    | u :: rest =>
      if u = sink then
        match reconstruct source parent (parent.length + 1) sink [] with
        | none => none
        | some p => some (some p)
      else
        let st := bfsPathScan ((getA rg u).getD []) u (visited, rest, parent)
        bfsPathLoop rg source sink fuel st.1 st.2.1 st.2.2

/-- `bfsPath()` of `maxFlow`: BFS over the current residual graph from
`source`, following only edges of positive residual capacity. -/
def bfsPath (rg : Residual) (source sink : Nat) : Option (Option (List Nat)) :=
  bfsPathLoop rg source sink (rg.length + 1) {source} [source] []

/-- Consecutive pairs of a path: the edges the augmentation walks. -/
def pathEdges (p : List Nat) : List (Nat × Nat) := p.zip p.tail

/-- The bottleneck loop for a path with at least one edge:
`pathFlow = Infinity` then `pathFlow = min(pathFlow, residual)` along the
path collapses to the minimum over the edges. -/
def bottleneck (rg : Residual) (e : Nat × Nat) (es : List (Nat × Nat)) : Int :=
  es.foldl (fun a p => min a (getIn rg p.1 p.2)) (getIn rg e.1 e.2)

/-- The augmentation loop: subtract the bottleneck from each forward
residual and add it to each reverse residual, edge by edge. -/
def augment (rg : Residual) (es : List (Nat × Nat)) (f : Int) : Residual :=
  es.foldl
    (fun rg p =>
      let rg := setIn rg p.1 p.2 (getIn rg p.1 p.2 - f)
      setIn rg p.2 p.1 (getIn rg p.2 p.1 + f))
    rg

/-- Outcome of one iteration of the `while (true)` loop of `maxFlow`. -/
inductive EKOutcome where
  | fuelOut : EKOutcome
  | noPath : EKOutcome
  | trivialPath : EKOutcome
  | augmentPath (rg : Residual) (f : Int) : EKOutcome
deriving DecidableEq

/-- One iteration of the `while (true)` loop: find an augmenting path,
compute its bottleneck and update the residuals.  `trivialPath` is a path
with no edge (only possible when `source = sink`): the source code then
adds `Infinity` to the flow and loops forever. -/
def ekStep (rg : Residual) (source sink : Nat) : EKOutcome :=
  match bfsPath rg source sink with
  | none => .fuelOut
  | some none => .noPath
  | some (some p) =>
    match pathEdges p with
    | [] => .trivialPath
    | e :: es =>
      let f := bottleneck rg e es
      .augmentPath (augment rg (e :: es) f) f

/-- The `while (true)` loop of `maxFlow`, with fuel; `totalFlow` lives in
`WithTop Int` because the degenerate no-edge path adds `Infinity`. -/
def ekLoop (source sink : Nat) :
    Nat → Residual → WithTop Int → Option (WithTop Int)
  | 0, _, _ => none
  | fuel + 1, rg, total =>
    match ekStep rg source sink with
    | .fuelOut => none
    | .noPath => some total
    | .trivialPath => ekLoop source sink fuel rg (total + ⊤)
    | .augmentPath rg' f => ekLoop source sink fuel rg' (total + (f : WithTop Int))

/-- Total residual capacity currently leaving `source`. -/
def sourceOut (rg : Residual) (source : Nat) : Int :=
  (((getA rg source).getD []).map Prod.snd).sum

/-- `maxFlow(graph, source, sink)` of `graphAlgorithms.ts`.  `some v` is a
returned flow value, `none` a run of the unbounded `while (true)` loop
that never reaches `break` within the (provably sufficient, see below)
fuel `sourceOut + 1`. -/
def maxFlow (g : GraphData) (source sink : Nat) : Option (WithTop Int) :=
  if g.isDirected = false then some 0
  else
    let rg := buildResidual g.nodes (buildCapacity g.edges)
    ekLoop source sink ((sourceOut rg source).toNat + 1) rg 0

/-! ## Basic lemmas about the association-list operations -/

@[simp] theorem keysA_nil {α β : Type} : keysA ([] : List (α × β)) = [] := rfl

@[simp] theorem keysA_cons {α β : Type} (p : α × β) (rest : List (α × β)) :
    keysA (p :: rest) = p.1 :: keysA rest := rfl

theorem getA_eq_none_of_not_mem {α β : Type} [DecidableEq α]
    {l : List (α × β)} {a : α} (h : a ∉ keysA l) : getA l a = none := by
  induction l with
  | nil => rfl
  | cons p rest ih =>
    rw [keysA_cons, List.mem_cons] at h
    push_neg at h
    rw [getA, if_neg (Ne.symm h.1)]
    exact ih h.2

theorem neighbors_eq_nil {g : GraphData} {s : Nat} (h : s ∉ g.nodes) :
    g.neighbors s = [] := by
  simp [GraphData.neighbors, getA_eq_none_of_not_mem (l := g.adjacencyList) h]

theorem getA_setA_self {α β : Type} [DecidableEq α]
    (l : List (α × β)) (a : α) (b : β) : getA (setA l a b) a = some b := by
  induction l with
  | nil => simp [setA, getA]
  | cons p rest ih =>
    by_cases h : p.1 = a
    · simp [setA, getA, h]
    · simp [setA, getA, h, ih]

theorem getA_setA_ne {α β : Type} [DecidableEq α]
    (l : List (α × β)) {a c : α} (b : β) (h : c ≠ a) :
    getA (setA l a b) c = getA l c := by
  induction l with
  | nil => simp [setA, getA, Ne.symm h]
  | cons p rest ih =>
    by_cases hp : p.1 = a
    · subst hp
      simp [setA, getA, Ne.symm h]
    · by_cases hc : p.1 = c
      · subst hc
        simp [setA, getA, hp]
      · simp [setA, getA, hp, hc, ih]

theorem mem_keysA_setA {α β : Type} [DecidableEq α]
    (l : List (α × β)) (a c : α) (b : β) :
    c ∈ keysA (setA l a b) ↔ c ∈ keysA l ∨ c = a := by
  induction l with
  | nil => simp [setA]
  | cons p rest ih =>
    by_cases hp : p.1 = a
    · subst hp
      rw [show setA (p :: rest) p.1 b = (p.1, b) :: rest by simp [setA]]
      simp only [keysA_cons, List.mem_cons]
      tauto
    · rw [show setA (p :: rest) a b = p :: setA rest a b by simp [setA, hp]]
      simp only [keysA_cons, List.mem_cons, ih]
      tauto

theorem keysA_nodup_setA {α β : Type} [DecidableEq α]
    {l : List (α × β)} (a : α) (b : β) (h : (keysA l).Nodup) :
    (keysA (setA l a b)).Nodup := by
  induction l with
  | nil => simp [setA]
  | cons p rest ih =>
    rw [keysA_cons, List.nodup_cons] at h
    by_cases hp : p.1 = a
    · subst hp
      simpa [setA] using h
    · rw [show setA (p :: rest) a b = p :: setA rest a b by simp [setA, hp],
        keysA_cons, List.nodup_cons]
      refine ⟨fun hc => ?_, ih h.2⟩
      rcases (mem_keysA_setA rest a p.1 b).1 hc with h1 | h1
      · exact h.1 h1
      · exact hp h1

theorem length_setA_of_mem {α β : Type} [DecidableEq α]
    {l : List (α × β)} {a : α} (b : β) (h : a ∈ keysA l) :
    (setA l a b).length = l.length := by
  induction l with
  | nil => simp at h
  | cons p rest ih =>
    by_cases hp : p.1 = a
    · simp [setA, hp]
    · rw [keysA_cons, List.mem_cons] at h
      rcases h with h | h
      · exact absurd h.symm hp
      · simp [setA, hp, ih h]

theorem length_setA_of_not_mem {α β : Type} [DecidableEq α]
    {l : List (α × β)} {a : α} (b : β) (h : a ∉ keysA l) :
    (setA l a b).length = l.length + 1 := by
  induction l with
  | nil => simp [setA]
  | cons p rest ih =>
    rw [keysA_cons, List.mem_cons] at h
    push_neg at h
    simp [setA, Ne.symm h.1, ih h.2]

theorem getA_isSome_of_mem {α β : Type} [DecidableEq α]
    {l : List (α × β)} {a : α} (h : a ∈ keysA l) : (getA l a).isSome := by
  induction l with
  | nil => simp at h
  | cons p rest ih =>
    by_cases hp : p.1 = a
    · simp [getA, hp]
    · rw [keysA_cons, List.mem_cons] at h
      rcases h with h | h
      · exact absurd h.symm hp
      · simp [getA, hp, ih h]

theorem mem_keysA_of_getA_isSome {α β : Type} [DecidableEq α]
    {l : List (α × β)} {a : α} (h : (getA l a).isSome) : a ∈ keysA l := by
  induction l with
  | nil => simp [getA] at h
  | cons p rest ih =>
    by_cases hp : p.1 = a
    · simp [keysA_cons, hp]
    · rw [getA, if_neg hp] at h
      simp [keysA_cons, ih h]

/-! ## Concrete graphs used as claim counterexamples and witnesses -/

/-- A single directed node with no edge: source = sink forces the
degenerate augmenting path `[0]`. -/
def gSingle : GraphData := ⟨true, [(0, [])], []⟩

/-- A two-node undirected graph. -/
def gUndir : GraphData := ⟨false, [(0, [1]), (1, [0])], [⟨0, 1, none⟩]⟩

/-- The undirected star `0 – 1`, `0 – 2`: BFS from 0 marks both
neighbours before emitting either. -/
def gStar : GraphData := ⟨false, [(0, [1, 2]), (1, [0]), (2, [0])], []⟩

/-- Two nodes joined by parallel edges (each listed twice in the other's
adjacency). -/
def gParallel : GraphData := ⟨false, [(0, [1, 1]), (1, [0, 0])], []⟩

/-- A single node with a self-loop. -/
def gSelfLoop : GraphData := ⟨false, [(0, [0])], []⟩

/-! ## C1: `maxFlow(G, s, s)` -/

/-- `bfsLoop` on an empty queue returns the accumulated steps at any
fuel. -/
theorem bfsLoop_nil (g : GraphData) (fuel : Nat) (v : Finset Nat)
    (steps : List TraversalStep) : bfsLoop g fuel v [] steps = steps := by
  cases fuel <;> rfl

/-- C1: the claim says `maxFlow(G, s, s)` fails fast with
`InvalidRequest`.  The code has no such validation: on the one-node
directed graph with `source = sink = 0` every `bfsPath` returns the
edgeless path `[0]`, `pathFlow` stays `Infinity`, no `break` is ever
reached, and the `while (true)` loop runs forever (`none` at every
fuel). -/
theorem maxFlow_self_loops_forever :
    (∀ fuel total, ekLoop 0 0 fuel
      (buildResidual gSingle.nodes (buildCapacity gSingle.edges)) total = none) ∧
    maxFlow gSingle 0 0 = none := by
  have hstep : ekStep (buildResidual gSingle.nodes (buildCapacity gSingle.edges))
      0 0 = .trivialPath := by decide
  constructor
  · intro fuel
    induction fuel with
    | zero => intro total; rfl
    | succ n ih =>
      intro total
      simp only [ekLoop, hstep]
      exact ih _
  · have h : ∀ fuel total, ekLoop 0 0 fuel
        (buildResidual gSingle.nodes (buildCapacity gSingle.edges)) total = none := by
      intro fuel
      induction fuel with
      | zero => intro total; rfl
      | succ n ih =>
        intro total
        simp only [ekLoop, hstep]
        exact ih _
    simp only [maxFlow]
    exact h _ _

/-! ## C2 and C10: behaviour on undirected graphs -/

/-- Shared fact: on an undirected graph, both operations return their
first-line defaults without touching the graph. -/
theorem undirected_defaults (g : GraphData) (s t : Nat)
    (h : g.isDirected = false) :
    findStronglyConnectedComponents g = [] ∧ maxFlow g s t = some 0 := by
  constructor
  · simp [findStronglyConnectedComponents, h]
  · simp [maxFlow, h]

/-- C2 counterexample: the claim says `maxFlow` and
`stronglyConnectedComponents` *fail with `NotApplicable`* on an undirected
graph.  On the undirected two-node graph both return ordinary results
(`[]` and flow `0`); the code has no error channel at all. -/
theorem undirected_no_failure :
    findStronglyConnectedComponents gUndir = [] ∧ maxFlow gUndir 0 1 = some 0 :=
  undirected_defaults gUndir 0 1 rfl

/-- C2 amended: on every undirected graph, `stronglyConnectedComponents`
returns the empty list and `maxFlow` returns the flow value `0`, silently
rather than failing with `NotApplicable`. -/
theorem undirected_silent_defaults (g : GraphData) (s t : Nat)
    (h : g.isDirected = false) :
    findStronglyConnectedComponents g = [] ∧ maxFlow g s t = some 0 :=
  undirected_defaults g s t h

/-- Witness for the C2 amended theorem at the concrete undirected
two-node graph. -/
theorem undirected_silent_defaults_witness :
    gUndir.isDirected = false ∧
    (findStronglyConnectedComponents gUndir = [] ∧ maxFlow gUndir 1 0 = some 0) :=
  ⟨rfl, undirected_silent_defaults gUndir 1 0 rfl⟩

/-- C10: on every graph with `isDirected = false`,
`stronglyConnectedComponents` returns the empty list and `maxFlow`
returns flow value 0, in both cases by the first-line guard, with no
error raised. -/
theorem undirected_empty_scc_zero_flow (g : GraphData) (s t : Nat)
    (h : g.isDirected = false) :
    findStronglyConnectedComponents g = [] ∧ maxFlow g s t = some 0 :=
  undirected_defaults g s t h

/-- Witness for C10 at the concrete undirected two-node graph. -/
theorem undirected_empty_scc_zero_flow_witness :
    gUndir.isDirected = false ∧
    (findStronglyConnectedComponents gUndir = [] ∧ maxFlow gUndir 0 1 = some 0) :=
  ⟨rfl, undirected_empty_scc_zero_flow gUndir 0 1 rfl⟩

/-! ## C3: traversal from an absent start node -/

/-- C3 counterexample: the claim says `breadthFirst`/`depthFirst` fail
with `NodeNotFound` when the start is not a key.  On the empty graph with
start `5` both return the ordinary one-step sequence `[(5, {5})]`: the
absent start is treated as a node with no neighbours, and the code has no
error channel. -/
theorem traversal_absent_start_no_failure :
    bfs ⟨false, [], []⟩ 5 = [⟨5, {5}, none⟩] ∧
    dfs ⟨false, [], []⟩ 5 = [⟨5, {5}, none⟩] := by
  constructor <;> decide

/-- C3 amended: for every graph and every start node that is not a key of
the adjacency mapping, `breadthFirst` and `depthFirst` return the
single-step sequence `[(start, {start})]` (the absent start contributes no
neighbours) instead of failing. -/
theorem traversal_absent_start_single_step (g : GraphData) (s : Nat)
    (h : s ∉ g.nodes) :
    bfs g s = [⟨s, {s}, none⟩] ∧ dfs g s = [⟨s, {s}, none⟩] := by
  have hn : g.neighbors s = [] := neighbors_eq_nil h
  constructor
  · rw [bfs]
    rw [show (insert s g.allIds).card + 1 = Nat.succ ((insert s g.allIds).card) from rfl]
    rw [bfsLoop]
    simp only [hn, bfsScan, List.foldl_nil]
    exact bfsLoop_nil g _ _ _
  · rw [dfs]
    rw [show (insert s g.allIds).card + 1 = Nat.succ ((insert s g.allIds).card) from rfl]
    rw [dfsVisit]
    simp [hn]

/-- Witness for the C3 amended theorem: start `5` on the empty graph. -/
theorem traversal_absent_start_single_step_witness :
    (5 ∉ GraphData.nodes ⟨false, [], []⟩) ∧
    (bfs ⟨false, [], []⟩ 5 = [⟨5, {5}, none⟩] ∧
      dfs ⟨false, [], []⟩ 5 = [⟨5, {5}, none⟩]) :=
  ⟨by decide, traversal_absent_start_single_step ⟨false, [], []⟩ 5 (by decide)⟩

/-! ## C5: biconnected components and the self-loop edge -/

/-- C5: the claim (and the spec's guarantee) says every edge of the graph
belongs to exactly one returned component and every node of degree ≥ 1
appears in at least one component, for self-loops and multi-edges as well
as plain edges.  On the graph whose single node `0` carries a self-loop —
an input the spec explicitly permits — the code emits *no* component at
all: the self-loop is neither a tree edge nor a back-edge with
`disc[v] < disc[u]`, so it is never pushed onto the edge stack.  The edge
`(0, 0)` therefore belongs to zero components and the degree-1 node `0`
appears in none, contradicting the claim; the code, not the claim, is at
fault with respect to the spec's own self-loop requirement. -/
theorem biconnected_self_loop_dropped :
    findBiconnectedComponents gSelfLoop = [] ∧ 0 ∈ gSelfLoop.neighbors 0 := by
  constructor <;> decide

/-! ## C7: parallel edges to the DFS parent -/

/-- C7 counterexample: the claim says only the specific edge instance back
to the immediate parent is skipped, so that on a graph with parallel edges
between `u` and its parent `p` the extra parallel edge counts as a
back-edge and `(p, u)` is *not* reported as a bridge.  The code compares
neighbour *ids* (`v !== parent.get(u)`), skipping every parallel edge to
the parent: on the two-node graph with a doubled edge `0 – 1` the bridge
`(0, 1)` *is* reported. -/
theorem parallel_parent_edge_reported_as_bridge :
    (0, 1) ∈ (findArticulationPoints gParallel).2 := by decide

/-- C7 amended: `dfsAP` skips every adjacency entry whose id equals the
immediate DFS-tree parent's id, not just the one edge instance; parallel
edges between a node and its parent are therefore never treated as
back-edges, and on the two-node graph with a doubled edge `0 – 1` the
code returns no articulation points and reports `(0, 1)` as a bridge. -/
theorem parallel_parent_edges_skipped :
    findArticulationPoints gParallel = ([], [(0, 1)]) := by decide

/-! ## C4: the BFS `visitedSoFar` snapshots -/

/-- `bfsScan` only grows the visited set. -/
theorem bfsScan_visited_subset (ns : List Nat) :
    ∀ visited queue, visited ⊆ (bfsScan visited queue ns).1 := by
  induction ns with
  | nil => intro visited queue; exact fun _ h => h
  | cons nb rest ih =>
    intro visited queue
    by_cases h : nb ∈ visited
    · simpa [bfsScan, h] using ih visited queue
    · have := ih (insert nb visited) (queue ++ [nb])
      intro x hx
      have : visited ⊆ (bfsScan (insert nb visited) (queue ++ [nb]) rest).1 :=
        fun y hy => ih _ _ (Finset.mem_insert_of_mem hy)
      simpa [bfsScan, h] using this hx

/-- If every queued node is visited, `bfsScan` keeps it that way. -/
theorem bfsScan_queue_subset (ns : List Nat) :
    ∀ visited queue, (∀ x ∈ queue, x ∈ visited) →
      ∀ x ∈ (bfsScan visited queue ns).2, x ∈ (bfsScan visited queue ns).1 := by
  induction ns with
  | nil => intro visited queue h; simpa [bfsScan] using h
  | cons nb rest ih =>
    intro visited queue h
    by_cases hm : nb ∈ visited
    · simpa [bfsScan, hm] using ih visited queue h
    · have hq : ∀ x ∈ queue ++ [nb], x ∈ insert nb visited := by
        intro x hx
        rcases List.mem_append.1 hx with hx | hx
        · exact Finset.mem_insert_of_mem (h x hx)
        · simp at hx
          simp [hx]
      simpa [bfsScan, hm] using ih (insert nb visited) (queue ++ [nb]) hq

/-- The relation the amended C4 claim asserts between consecutive steps:
the snapshots are cumulative and their sizes non-decreasing. -/
def StepMono (a b : TraversalStep) : Prop :=
  a.visited ⊆ b.visited ∧ a.visited.card ≤ b.visited.card

instance : DecidableRel StepMono := fun a b => by
  unfold StepMono; infer_instance

/-- Invariant of the BFS loop: the emitted snapshots are below the
current visited set, each contains its own node, and they form a
`StepMono` chain. -/
theorem bfsLoop_mono (g : GraphData) : ∀ fuel visited queue steps,
    (∀ st ∈ steps, st.visited ⊆ visited) →
    (∀ st ∈ steps, st.node ∈ st.visited) →
    (∀ x ∈ queue, x ∈ visited) →
    List.Chain' StepMono steps →
    List.Chain' StepMono (bfsLoop g fuel visited queue steps) ∧
      ∀ st ∈ bfsLoop g fuel visited queue steps, st.node ∈ st.visited := by
  intro fuel
  induction fuel with
  | zero => intro visited queue steps h1 h2 _ h4; exact ⟨h4, h2⟩
  | succ n ih =>
    intro visited queue steps h1 h2 h3 h4
    match queue with
    | [] => exact ⟨h4, h2⟩
    | node :: rest =>
      rw [bfsLoop]
      have hnode : node ∈ visited := h3 node (by simp)
      set st := (⟨node, visited, none⟩ : TraversalStep) with hst
      have h1' : ∀ s ∈ steps ++ [st], s.visited ⊆ (bfsScan visited rest (g.neighbors node)).1 := by
        intro s hs
        rcases List.mem_append.1 hs with hs | hs
        · exact (h1 s hs).trans (bfsScan_visited_subset _ _ _)
        · simp at hs
          subst hs
          exact bfsScan_visited_subset _ _ _
      have h2' : ∀ s ∈ steps ++ [st], s.node ∈ s.visited := by
        intro s hs
        rcases List.mem_append.1 hs with hs | hs
        · exact h2 s hs
        · simp at hs; subst hs; exact hnode
      have h3' : ∀ x ∈ (bfsScan visited rest (g.neighbors node)).2,
          x ∈ (bfsScan visited rest (g.neighbors node)).1 :=
        bfsScan_queue_subset _ _ _ (fun x hx => h3 x (by simp [hx]))
      have h4' : List.Chain' StepMono (steps ++ [st]) := by
        rw [List.chain'_append]
        refine ⟨h4, List.chain'_singleton _, ?_⟩
        intro x hx y hy
        simp only [List.head?_cons, Option.mem_def, Option.some.injEq] at hy
        subst hy
        have hxs : x ∈ steps := List.mem_of_mem_getLast? hx
        exact ⟨h1 x hxs, Finset.card_le_card (h1 x hxs)⟩
      exact ih _ _ _ h1' h2' h3' h4'

/-- C4 counterexample: on the undirected star (0 adjacent to 1 and 2) the
BFS snapshot sizes are `[1, 3, 3]` — both unvisited neighbours are marked
while step 0 is processed, so the emitted snapshots jump by 2 and then
stall, refuting the claimed strict `+1` growth per step. -/
theorem bfs_snapshot_not_plus_one :
    ((bfs gStar 0).map fun st => st.visited.card) = [1, 3, 3] ∧
    ¬ List.Chain' (fun a b => b = a + 1)
      ((bfs gStar 0).map fun st => st.visited.card) := by
  have h : ((bfs gStar 0).map fun st => st.visited.card) = [1, 3, 3] := by decide
  exact ⟨h, by rw [h]; simp [List.chain'_cons]⟩

/-- C4 amended: each step's `visitedSoFar` is the cumulative visited set
at the moment the node is *dequeued and emitted* (it contains the node and
every earlier snapshot), so from one step to the next the snapshot only
grows and its size is non-decreasing — but it can jump by more than 1 or
stay flat, not grow by exactly 1. -/
theorem bfs_snapshot_monotone (g : GraphData) (s : Nat) :
    List.Chain' StepMono (bfs g s) ∧ ∀ st ∈ bfs g s, st.node ∈ st.visited := by
  refine bfsLoop_mono g _ {s} [s] [] ?_ ?_ ?_ ?_
  · intro st h; simp at h
  · intro st h; simp at h
  · intro x hx; simp at hx; simp [hx]
  · exact List.chain'_nil

/-- Witness for the C4 amended theorem on the star graph. -/
theorem bfs_snapshot_monotone_witness :
    List.Chain' StepMono (bfs gStar 0) ∧
      ∀ st ∈ bfs gStar 0, st.node ∈ st.visited :=
  bfs_snapshot_monotone gStar 0

/-! ## C9: the DFS snapshots form an exact prefix trace -/

/-- Default step used for positional lookups. -/
def defStep : TraversalStep := ⟨0, ∅, none⟩

/-- The emitted node sequence of a step list. -/
def stepNodes (steps : List TraversalStep) : List Nat :=
  steps.map TraversalStep.node

/-- The DFS trace invariant: emitted nodes are pairwise distinct, the
running visited set is exactly the set of emitted nodes, and the `k`-th
snapshot is the set of the first `k + 1` emitted nodes. -/
def DfsInv (s : Finset Nat × List TraversalStep) : Prop :=
  (stepNodes s.2).Nodup ∧ s.1 = (stepNodes s.2).toFinset ∧
    ∀ k, k < s.2.length →
      (s.2.getD k defStep).visited = ((stepNodes s.2).take (k + 1)).toFinset

/-- Marking-then-emitting one fresh node preserves the DFS trace
invariant. -/
theorem dfsInv_push {s : Finset Nat × List TraversalStep} {node : Nat}
    (hinv : DfsInv s) (hnew : node ∉ s.1) :
    DfsInv (insert node s.1, s.2 ++ [⟨node, insert node s.1, none⟩]) := by
  obtain ⟨hnd, hvis, hsnap⟩ := hinv
  have hnodes : stepNodes (s.2 ++ [⟨node, insert node s.1, none⟩]) =
      stepNodes s.2 ++ [node] := by
    simp [stepNodes]
  have hmem : node ∉ stepNodes s.2 := by
    intro hc
    exact hnew (hvis ▸ List.mem_toFinset.2 hc)
  refine ⟨?_, ?_, ?_⟩
  · rw [hnodes]
    simpa [List.nodup_append] using ⟨hnd, hmem⟩
  · rw [hnodes, List.toFinset_append, hvis]
    ext x
    simp [Or.comm]
  · intro k hk
    rw [List.length_append, List.length_singleton] at hk
    rcases Nat.lt_succ_iff_lt_or_eq.1 hk with hk' | hk'
    · have hg : (s.2 ++ [(⟨node, insert node s.1, none⟩ : TraversalStep)]).getD k defStep =
          s.2.getD k defStep :=
        List.getD_append _ _ _ _ hk'
      rw [hg, hnodes, hsnap k hk',
        List.take_append_of_le_length
          (by rw [stepNodes, List.length_map]; omega)]
    · subst hk'
      have hg : (s.2 ++ [(⟨node, insert node s.1, none⟩ : TraversalStep)]).getD s.2.length defStep =
          (⟨node, insert node s.1, none⟩ : TraversalStep) := by
        rw [List.getD_append_right _ _ _ _ (le_refl _)]
        simp
      rw [hg, hnodes]
      have hlen : stepNodes s.2 ++ [node] =
          (stepNodes s.2 ++ [node]).take (s.2.length + 1) := by
        rw [List.take_of_length_le]
        rw [List.length_append, List.length_singleton, stepNodes,
          List.length_map]
      rw [← hlen, List.toFinset_append, hvis]
      ext x
      simp [Or.comm]

/-- Unfolding of `dfsVisit` at positive fuel. -/
theorem dfsVisit_succ (g : GraphData) (n node : Nat) (visited : Finset Nat)
    (steps : List TraversalStep) :
    dfsVisit g (n + 1) node (visited, steps) =
      (g.neighbors node).foldl
        (fun s nb => if nb ∈ s.1 then s else dfsVisit g n nb s)
        (insert node visited, steps ++ [⟨node, insert node visited, none⟩]) := rfl

/-- `dfsVisit` preserves the DFS trace invariant (the node entering a
recursive call is always unvisited). -/
theorem dfsVisit_inv (g : GraphData) : ∀ fuel node s,
    DfsInv s → node ∉ s.1 → DfsInv (dfsVisit g fuel node s) := by
  intro fuel
  induction fuel with
  | zero => intro node s h _; exact h
  | succ n ih =>
    intro node s hinv hnew
    obtain ⟨visited, steps⟩ := s
    rw [dfsVisit_succ]
    have hpush : DfsInv (insert node visited, steps ++ [⟨node, insert node visited, none⟩]) :=
      dfsInv_push hinv hnew
    have hfold : ∀ (ns : List Nat) (t : Finset Nat × List TraversalStep), DfsInv t →
        DfsInv (ns.foldl (fun t nb => if nb ∈ t.1 then t else dfsVisit g n nb t) t) := by
      intro ns
      induction ns with
      | nil => intro t h; exact h
      | cons nb rest ihr =>
        intro t h
        by_cases hm : nb ∈ t.1
        · simpa [hm] using ihr t h
        · simpa [hm] using ihr _ (ih nb t h hm)
    exact hfold _ _ hpush

/-- C9: in the step sequence of `dfs`, the `k`-th snapshot equals the set
of nodes emitted by the first `k + 1` steps and contains exactly `k + 1`
elements: each node is marked visited immediately before its step is
emitted, and no node is emitted twice. -/
theorem dfs_snapshot_trace (g : GraphData) (s k : Nat)
    (h : k < (dfs g s).length) :
    ((dfs g s).getD k defStep).visited =
      (((dfs g s).take (k + 1)).map TraversalStep.node).toFinset ∧
    ((dfs g s).getD k defStep).visited.card = k + 1 := by
  have hinv : DfsInv (dfsVisit g ((insert s g.allIds).card + 1) s (∅, [])) := by
    refine dfsVisit_inv g _ s (∅, []) ?_ (Finset.not_mem_empty s)
    exact ⟨List.nodup_nil, by simp [stepNodes], fun k hk => by simp at hk⟩
  obtain ⟨hnd, _, hsnap⟩ := hinv
  have hdfs : dfs g s = (dfsVisit g ((insert s g.allIds).card + 1) s (∅, [])).2 := rfl
  have h1 := hsnap k (by rw [← hdfs] at *; exact h)
  rw [← hdfs] at h1
  have hmap : ((dfs g s).take (k + 1)).map TraversalStep.node =
      (stepNodes (dfs g s)).take (k + 1) := by
    rw [stepNodes, List.map_take]
  constructor
  · rw [h1, hmap]
  · rw [h1]
    have hnd' : ((stepNodes (dfs g s)).take (k + 1)).Nodup :=
      (List.take_sublist _ _).nodup (by rw [← hdfs] at hnd; exact hnd)
    rw [List.toFinset_card_of_nodup hnd']
    rw [List.length_take, stepNodes, List.length_map]
    omega

/-- Witness for C9 at step index 1 of the DFS on the star graph. -/
theorem dfs_snapshot_trace_witness :
    1 < (dfs gStar 0).length ∧
    (((dfs gStar 0).getD 1 defStep).visited =
      (((dfs gStar 0).take 2).map TraversalStep.node).toFinset ∧
    ((dfs gStar 0).getD 1 defStep).visited.card = 2) :=
  ⟨by decide, dfs_snapshot_trace gStar 0 1 (by decide)⟩

/-! ## C6: connected components partition the node set -/

/-- `getA` only returns stored bindings. -/
theorem mem_of_getA_eq_some {α β : Type} [DecidableEq α]
    {l : List (α × β)} {a : α} {b : β} (h : getA l a = some b) : (a, b) ∈ l := by
  induction l with
  | nil => simp [getA] at h
  | cons p rest ih =>
    obtain ⟨p1, p2⟩ := p
    by_cases hp : p1 = a
    · subst hp
      rw [getA, if_pos rfl, Option.some_inj] at h
      subst h
      exact List.mem_cons_self _ _
    · rw [getA, if_neg hp] at h
      exact List.mem_cons_of_mem _ (ih h)

/-- Every neighbour of every node lies in `K`. -/
def Closed (g : GraphData) (K : Finset Nat) : Prop :=
  ∀ u v, v ∈ g.neighbors u → v ∈ K

/-- `bfsScan` appends a duplicate-free batch of fresh (previously
unvisited) neighbours to the queue and marks exactly that batch. -/
theorem bfsScan_spec (ns : List Nat) : ∀ visited queue,
    ∃ fresh : List Nat,
      bfsScan visited queue ns = (visited ∪ fresh.toFinset, queue ++ fresh) ∧
      fresh.Nodup ∧ ∀ x ∈ fresh, x ∈ ns ∧ x ∉ visited := by
  induction ns with
  | nil =>
    intro visited queue
    exact ⟨[], by simp [bfsScan], List.nodup_nil, by simp⟩
  | cons nb rest ih =>
    intro visited queue
    by_cases h : nb ∈ visited
    · obtain ⟨fresh, heq, hnd, hmem⟩ := ih visited queue
      refine ⟨fresh, ?_, hnd, ?_⟩
      · exact (show bfsScan visited queue (nb :: rest) =
          bfsScan visited queue rest by simp [bfsScan, h]).trans heq
      · exact fun x hx => ⟨List.mem_cons_of_mem _ (hmem x hx).1, (hmem x hx).2⟩
    · obtain ⟨fresh, heq, hnd, hmem⟩ := ih (insert nb visited) (queue ++ [nb])
      refine ⟨nb :: fresh, ?_, ?_, ?_⟩
      · rw [show bfsScan visited queue (nb :: rest) =
          bfsScan (insert nb visited) (queue ++ [nb]) rest by simp [bfsScan, h]]
        rw [heq]
        refine Prod.ext ?_ ?_
        · show insert nb visited ∪ fresh.toFinset =
            visited ∪ (nb :: fresh).toFinset
          ext x
          simp
          try tauto
        · show queue ++ [nb] ++ fresh = queue ++ nb :: fresh
          simp
      · refine List.nodup_cons.2 ⟨fun hc => ?_, hnd⟩
        exact (hmem nb hc).2 (Finset.mem_insert_self nb visited)
      · intro x hx
        rcases List.mem_cons.1 hx with hx | hx
        · subst hx
          exact ⟨List.mem_cons_self _ _, h⟩
        · have := hmem x hx
          exact ⟨List.mem_cons_of_mem _ this.1,
            fun hc => this.2 (Finset.mem_insert_of_mem hc)⟩

/-- The inner BFS of `findConnectedComponents`: starting from a marked
queue disjoint from the previously-visited set `V0`, with enough fuel to
drain the frontier, it returns exactly the old state plus one
duplicate-free component, and the visited set grows by exactly that
component. -/
theorem ccLoop_spec (g : GraphData) (K : Finset Nat) (hcl : Closed g K)
    (V0 : Finset Nat) : ∀ fuel visited queue comp,
    visited = V0 ∪ (comp ++ queue).toFinset →
    (comp ++ queue).Nodup →
    Disjoint V0 (comp ++ queue).toFinset →
    visited ⊆ K ∪ V0 →
    queue.length + (K \ visited).card ≤ fuel →
    (ccLoop g fuel visited queue comp).1 =
        V0 ∪ (ccLoop g fuel visited queue comp).2.toFinset ∧
      (ccLoop g fuel visited queue comp).2.Nodup ∧
      Disjoint V0 (ccLoop g fuel visited queue comp).2.toFinset ∧
      (ccLoop g fuel visited queue comp).1 ⊆ K ∪ V0 ∧
      visited ⊆ (ccLoop g fuel visited queue comp).1 := by
  intro fuel
  induction fuel with
  | zero =>
    intro visited queue comp h1 h2 h3 h4 h5
    have hq : queue = [] := by
      rw [Nat.le_zero, Nat.add_eq_zero] at h5
      exact List.length_eq_zero.1 h5.1
    subst hq
    rw [List.append_nil] at h1 h2 h3
    exact ⟨h1, h2, h3, h4, fun _ h => h⟩
  | succ n ih =>
    intro visited queue comp h1 h2 h3 h4 h5
    match queue with
    | [] =>
      rw [List.append_nil] at h1 h2 h3
      exact ⟨h1, h2, h3, h4, fun _ h => h⟩
    | cur :: rest =>
      rw [ccLoop]
      obtain ⟨fresh, heq, hfnd, hfmem⟩ := bfsScan_spec (g.neighbors cur) visited rest
      rw [heq]
      have hfreshK : ∀ x ∈ fresh, x ∈ K := fun x hx =>
        hcl cur x (hfmem x hx).1
      have hfreshT : fresh.toFinset ⊆ K \ visited := by
        intro x hx
        rw [List.mem_toFinset] at hx
        exact Finset.mem_sdiff.2 ⟨hfreshK x hx, (hfmem x hx).2⟩
      have hcard : (K \ (visited ∪ fresh.toFinset)).card + fresh.length =
          (K \ visited).card := by
        have h6 : K \ (visited ∪ fresh.toFinset) = (K \ visited) \ fresh.toFinset := by
          ext x
          simp [Finset.mem_sdiff]
          tauto
        rw [h6, Finset.card_sdiff hfreshT, List.toFinset_card_of_nodup hfnd]
        have := Finset.card_le_card hfreshT
        rw [List.toFinset_card_of_nodup hfnd] at this
        omega
      have harr : comp ++ [cur] ++ (rest ++ fresh) =
          (comp ++ cur :: rest) ++ fresh := by
        simp
      refine ih (visited ∪ fresh.toFinset) (rest ++ fresh) (comp ++ [cur])
        ?_ ?_ ?_ ?_ ?_ |>.imp id (fun h => h.imp id (fun h => h.imp id
          (fun h => h.imp id (fun h x hx => h (Finset.mem_union_left _ hx)))))
      · rw [harr, List.toFinset_append, h1]
        ext x
        simp
        try tauto
      · rw [harr, List.nodup_append]
        refine ⟨h2, hfnd, fun x hx hx' => ?_⟩
        have : x ∈ visited := by
          rw [h1]
          exact Finset.mem_union_right _ (List.mem_toFinset.2 hx)
        exact (hfmem x hx').2 this
      · rw [harr, List.toFinset_append, Finset.disjoint_union_right]
        refine ⟨h3, ?_⟩
        rw [Finset.disjoint_left]
        intro x hx hx'
        rw [List.mem_toFinset] at hx'
        exact (hfmem x hx').2 (by rw [h1]; exact Finset.mem_union_left _ hx)
      · refine Finset.union_subset h4 ?_
        intro x hx
        rw [List.mem_toFinset] at hx
        exact Finset.mem_union_left _ (hfreshK x hx)
      · rw [List.length_append]
        rw [List.length_cons] at h5
        omega

/-- The body of the outer loop of `findConnectedComponents`, named for the
proofs below. -/
def ccStep (g : GraphData) (st : Finset Nat × List (List Nat)) (node : Nat) :
    Finset Nat × List (List Nat) :=
  if node ∈ st.1 then st
  else
    let vc := ccLoop g (g.allIds.card + 1) (insert node st.1) [node] []
    (vc.1, st.2 ++ [sortNat vc.2])

theorem findConnectedComponents_eq (g : GraphData) :
    findConnectedComponents g = (g.nodes.foldl (ccStep g) (∅, [])).2 := rfl

/-- Membership in the id-collecting fold behind `allIds`. -/
theorem mem_foldr_insert (ns : List Nat) (acc : Finset Nat) (x : Nat) :
    x ∈ ns.foldr insert acc ↔ x ∈ ns ∨ x ∈ acc := by
  induction ns with
  | nil => simp
  | cons a rest ih => simp [ih]; tauto

/-- Keys are contained in the id-collecting fold. -/
theorem mem_ids_foldr_of_key (l : List (Nat × List Nat)) (x : Nat)
    (hx : x ∈ keysA l) :
    x ∈ l.foldr (fun p acc => insert p.1 (p.2.foldr insert acc))
      (∅ : Finset Nat) := by
  induction l with
  | nil => simp at hx
  | cons p rest ih =>
    rw [keysA_cons, List.mem_cons] at hx
    rw [List.foldr_cons, Finset.mem_insert, mem_foldr_insert]
    rcases hx with hx | hx
    · exact Or.inl hx
    · exact Or.inr (Or.inr (ih hx))

/-- Adjacency keys are contained in `allIds`. -/
theorem nodes_subset_allIds (g : GraphData) : g.nodes.toFinset ⊆ g.allIds :=
  fun x hx => mem_ids_foldr_of_key g.adjacencyList x (List.mem_toFinset.1 hx)

/-- sorting preserves membership, duplicates and the element set. -/
theorem sortNat_perm (l : List Nat) : (sortNat l).Perm l :=
  List.mergeSort_perm l _

/-- Invariant of the outer loop of `findConnectedComponents`: the visited
set is exactly the union of the emitted components, their concatenation is
duplicate-free and inside `K`, and every processed key ends up visited. -/
theorem ccFold_inv (g : GraphData) (K : Finset Nat) (hclosed : Closed g K)
    (hKall : K ⊆ g.allIds) :
    ∀ (ks : List Nat), (∀ x ∈ ks, x ∈ K) →
    ∀ (st : Finset Nat × List (List Nat)),
      st.2.join.Nodup → st.1 = st.2.join.toFinset → st.1 ⊆ K →
      ((ks.foldl (ccStep g) st).2.join.Nodup ∧
        (ks.foldl (ccStep g) st).1 = (ks.foldl (ccStep g) st).2.join.toFinset ∧
        (ks.foldl (ccStep g) st).1 ⊆ K ∧
        ∀ x, x ∈ ks ∨ x ∈ st.1 → x ∈ (ks.foldl (ccStep g) st).1) := by
  intro ks
  induction ks with
  | nil =>
    intro _ st j1 j2 j3
    refine ⟨j1, j2, j3, fun x hx => ?_⟩
    rcases hx with hx | hx
    · simp at hx
    · exact hx
  | cons k rest ihk =>
    intro hks st j1 j2 j3
    rw [List.foldl_cons]
    by_cases hk : k ∈ st.1
    · rw [show ccStep g st k = st by simp [ccStep, hk]]
      obtain ⟨a1, a2, a3, a4⟩ :=
        ihk (fun x hx => hks x (List.mem_cons_of_mem _ hx)) st j1 j2 j3
      refine ⟨a1, a2, a3, fun x hx => a4 x ?_⟩
      rcases hx with hx | hx
      · rcases List.mem_cons.1 hx with hx | hx
        · right; rw [hx]; exact hk
        · left; exact hx
      · right; exact hx
    · rw [show ccStep g st k =
        ((ccLoop g (g.allIds.card + 1) (insert k st.1) [k] []).1,
          st.2 ++ [sortNat (ccLoop g (g.allIds.card + 1) (insert k st.1) [k] []).2])
        by simp [ccStep, hk]]
      have hkK : k ∈ K := hks k (List.mem_cons_self _ _)
      obtain ⟨c1, c2, c3, c4, c5⟩ := ccLoop_spec g K hclosed st.1
        (g.allIds.card + 1) (insert k st.1) [k] []
        (by ext x; simp [Or.comm])
        (by simp)
        (by simpa using Finset.disjoint_singleton_right.2 hk)
        (by
          intro x hx
          rcases Finset.mem_insert.1 hx with hx | hx
          · rw [hx]; exact Finset.mem_union_left _ hkK
          · exact Finset.mem_union_right _ hx)
        (by
          have h1 : (K \ insert k st.1).card ≤ K.card :=
            Finset.card_le_card (Finset.sdiff_subset)
          have h2 : K.card ≤ g.allIds.card := Finset.card_le_card hKall
          simp only [List.length_singleton]
          omega)
      set vc := ccLoop g (g.allIds.card + 1) (insert k st.1) [k] [] with hvc
      have hsortT : (sortNat vc.2).toFinset = vc.2.toFinset :=
        List.toFinset_eq_of_perm _ _ (sortNat_perm vc.2)
      have hjoin : (st.2 ++ [sortNat vc.2]).join = st.2.join ++ sortNat vc.2 := by
        simp
      have j1' : (st.2 ++ [sortNat vc.2]).join.Nodup := by
        rw [hjoin, List.nodup_append]
        refine ⟨j1, ((sortNat_perm vc.2).nodup_iff).2 c2, ?_⟩
        intro x hx hx'
        have hx1 : x ∈ st.1 := j2 ▸ List.mem_toFinset.2 hx
        have hx2 : x ∈ vc.2.toFinset :=
          hsortT ▸ List.mem_toFinset.2 hx'
        exact Finset.disjoint_left.1 c3 hx1 hx2
      have j2' : vc.1 = (st.2 ++ [sortNat vc.2]).join.toFinset := by
        rw [hjoin, List.toFinset_append, hsortT, ← j2, c1]
      have j3' : vc.1 ⊆ K := by
        intro x hx
        rcases Finset.mem_union.1 (c4 hx) with hx | hx
        · exact hx
        · exact j3 hx
      obtain ⟨a1, a2, a3, a4⟩ :=
        ihk (fun x hx => hks x (List.mem_cons_of_mem _ hx))
          (vc.1, st.2 ++ [sortNat vc.2]) j1' j2' j3'
      refine ⟨a1, a2, a3, fun x hx => a4 x ?_⟩
      rcases hx with hx | hx
      · rcases List.mem_cons.1 hx with hx | hx
        · right
          rw [hx]
          exact c5 (Finset.mem_insert_self k st.1)
        · left; exact hx
      · right
        exact c5 (Finset.mem_insert_of_mem hx)

/-- C6: on a graph whose adjacency mapping is closed (every neighbour id
is also a key) and whose keys are distinct (a JS `Map` guarantee), the
concatenation of the components returned by `connectedComponents` is a
permutation of the node set: every node lies in exactly one component, no
node twice, and the union of the components is the whole node set. -/
theorem cc_partition (g : GraphData)
    (hundir : g.isDirected = false)
    (hnd : g.nodes.Nodup)
    (hcl : ∀ p ∈ g.adjacencyList, ∀ v ∈ p.2, v ∈ g.nodes) :
    (findConnectedComponents g).join.Perm g.nodes := by
  set K : Finset Nat := g.nodes.toFinset with hK
  have hclosed : Closed g K := by
    intro u v hv
    unfold GraphData.neighbors at hv
    cases hgu : getA g.adjacencyList u with
    | none => rw [hgu] at hv; simp at hv
    | some ns =>
      rw [hgu] at hv
      simp only [Option.getD_some] at hv
      exact List.mem_toFinset.2 (hcl (u, ns) (mem_of_getA_eq_some hgu) v hv)
  obtain ⟨a1, a2, a3, a4⟩ := ccFold_inv g K hclosed (nodes_subset_allIds g)
    g.nodes (fun x hx => List.mem_toFinset.2 hx) (∅, [])
    (by simp) (by simp) (by simp)
  rw [findConnectedComponents_eq]
  refine List.perm_of_nodup_nodup_toFinset_eq a1 hnd ?_
  rw [← a2]
  refine Finset.Subset.antisymm a3 ?_
  intro x hx
  rw [List.mem_toFinset] at hx
  exact a4 x (Or.inl hx)

/-- Witness for C6 on the two-component undirected graph
`{0: [1], 1: [0], 2: []}`. -/
theorem cc_partition_witness :
    (GraphData.isDirected ⟨false, [(0, [1]), (1, [0]), (2, [])], []⟩ = false) ∧
    (GraphData.nodes ⟨false, [(0, [1]), (1, [0]), (2, [])], []⟩).Nodup ∧
    (findConnectedComponents ⟨false, [(0, [1]), (1, [0]), (2, [])], []⟩).join.Perm
      (GraphData.nodes ⟨false, [(0, [1]), (1, [0]), (2, [])], []⟩) :=
  ⟨rfl, by decide,
    cc_partition ⟨false, [(0, [1]), (1, [0]), (2, [])], []⟩ rfl (by decide)
      (by decide)⟩

/-! ## C8: termination and boundedness of `maxFlow`

The development below follows the argument stated in the spec: every
augmenting path found by `bfsPath` consists of residual edges of positive
capacity, so its bottleneck is at least 1; an augmentation subtracts the
bottleneck exactly once from the residual row of the source and never
touches that row otherwise, so `totalFlow + sourceOut` is invariant and
`sourceOut` (which starts at the total capacity leaving the source and
stays entrywise non-negative) strictly decreases — bounding both the flow
value and the number of iterations. -/

/-- Members of `setA` are old bindings or the new one. -/
theorem mem_setA {α β : Type} [DecidableEq α]
    {l : List (α × β)} {a : α} {b : β} {q : α × β} (h : q ∈ setA l a b) :
    q ∈ l ∨ q = (a, b) := by
  induction l with
  | nil => simpa [setA] using h
  | cons p rest ih =>
    by_cases hp : p.1 = a
    · rw [show setA (p :: rest) a b = (p.1, b) :: rest by simp [setA, hp]] at h
      rcases List.mem_cons.1 h with h | h
      · right; rw [h, hp]
      · left; exact List.mem_cons_of_mem _ h
    · rw [show setA (p :: rest) a b = p :: setA rest a b by simp [setA, hp]] at h
      rcases List.mem_cons.1 h with h | h
      · left; rw [h]; exact List.mem_cons_self _ _
      · rcases ih h with h | h
        · left; exact List.mem_cons_of_mem _ h
        · right; exact h

/-- In-place update does not change the key sequence of an existing key. -/
theorem keysA_setA_of_mem {α β : Type} [DecidableEq α]
    {l : List (α × β)} {a : α} (b : β) (h : a ∈ keysA l) :
    keysA (setA l a b) = keysA l := by
  induction l with
  | nil => simp at h
  | cons p rest ih =>
    by_cases hp : p.1 = a
    · rw [show setA (p :: rest) a b = (p.1, b) :: rest by simp [setA, hp]]
      rfl
    · rw [keysA_cons, List.mem_cons] at h
      rcases h with h | h
      · exact absurd h.symm hp
      · rw [show setA (p :: rest) a b = p :: setA rest a b by simp [setA, hp],
          keysA_cons, keysA_cons, ih h]

/-- With duplicate-free keys, `getA` recovers any stored binding. -/
theorem getA_eq_of_mem_nodup {α β : Type} [DecidableEq α]
    {l : List (α × β)} (hnd : (keysA l).Nodup) {q : α × β} (h : q ∈ l) :
    getA l q.1 = some q.2 := by
  induction l with
  | nil => simp at h
  | cons p rest ih =>
    rw [keysA_cons, List.nodup_cons] at hnd
    rcases List.mem_cons.1 h with h | h
    · rw [h, getA, if_pos rfl]
    · have hq : q.1 ∈ keysA rest := List.mem_map_of_mem Prod.fst h
      have hne : p.1 ≠ q.1 := fun hc => hnd.1 (hc ▸ hq)
      rw [getA, if_neg hne]
      exact ih hnd.2 h

/-- Sum of the values of an inner residual map. -/
def innerSum (m : InnerMap) : Int := (m.map Prod.snd).sum

theorem innerSum_setA_of_getA {m : InnerMap} {v : Nat} {w : Int} (c : Int)
    (h : getA m v = some w) :
    innerSum (setA m v c) = innerSum m - w + c := by
  induction m with
  | nil => simp [getA] at h
  | cons p rest ih =>
    by_cases hp : p.1 = v
    · rw [getA, if_pos hp, Option.some_inj] at h
      rw [show setA (p :: rest) v c = (p.1, c) :: rest by simp [setA, hp]]
      simp [innerSum, h]
      ring
    · rw [getA, if_neg hp] at h
      rw [show setA (p :: rest) v c = p :: setA rest v c by simp [setA, hp]]
      simp only [innerSum, List.map_cons, List.sum_cons] at *
      rw [ih h]
      ring

theorem innerSum_setA_of_not_mem {m : InnerMap} {v : Nat} (c : Int)
    (h : getA m v = none) :
    innerSum (setA m v c) = innerSum m + c := by
  induction m with
  | nil => simp [setA, innerSum]
  | cons p rest ih =>
    by_cases hp : p.1 = v
    · rw [getA, if_pos hp] at h
      exact absurd h (by simp)
    · rw [getA, if_neg hp] at h
      rw [show setA (p :: rest) v c = p :: setA rest v c by simp [setA, hp]]
      simp only [innerSum, List.map_cons, List.sum_cons] at *
      rw [ih h]
      ring

/-- An entry of an entrywise non-negative inner map is at most the sum. -/
theorem entry_le_innerSum {m : InnerMap} (hnn : ∀ q ∈ m, 0 ≤ q.2)
    {q : Nat × Int} (h : q ∈ m) : q.2 ≤ innerSum m := by
  induction m with
  | nil => simp at h
  | cons p rest ih =>
    simp only [innerSum, List.map_cons, List.sum_cons]
    rcases List.mem_cons.1 h with h | h
    · rw [h]
      have : (0 : Int) ≤ innerSum rest := by
        unfold innerSum
        apply List.sum_nonneg
        intro x hx
        obtain ⟨r, hr, hrx⟩ := List.mem_map.1 hx
        exact hrx ▸ hnn r (List.mem_cons_of_mem _ hr)
      unfold innerSum at this
      omega
    · have h1 : q.2 ≤ innerSum rest :=
        ih (fun r hr => hnn r (List.mem_cons_of_mem _ hr)) h
      have h2 : 0 ≤ p.2 := hnn p (List.mem_cons_self _ _)
      unfold innerSum at h1
      omega

theorem innerSum_nonneg {m : InnerMap} (hnn : ∀ q ∈ m, 0 ≤ q.2) :
    0 ≤ innerSum m := by
  unfold innerSum
  apply List.sum_nonneg
  intro x hx
  obtain ⟨r, hr, hrx⟩ := List.mem_map.1 hx
  exact hrx ▸ hnn r hr

/-! ### `setIn`/`getIn`/`hasIn` algebra -/

theorem keysA_setIn (rg : Residual) (u v : Nat) (c : Int) :
    keysA (setIn rg u v c) = keysA rg := by
  unfold setIn
  cases hg : getA rg u with
  | none => rfl
  | some inner =>
    exact keysA_setA_of_mem _ (mem_keysA_of_getA_isSome (by rw [hg]; rfl))

theorem getA_setIn_self {rg : Residual} {u : Nat} {inner : InnerMap}
    (h : getA rg u = some inner) (v : Nat) (c : Int) :
    getA (setIn rg u v c) u = some (setA inner v c) := by
  unfold setIn
  rw [h]
  exact getA_setA_self rg u (setA inner v c)

theorem getA_setIn_other {rg : Residual} {u x : Nat} (hx : x ≠ u)
    (v : Nat) (c : Int) : getA (setIn rg u v c) x = getA rg x := by
  unfold setIn
  cases getA rg u with
  | none => rfl
  | some inner => exact getA_setA_ne rg _ hx

theorem getIn_setIn_self {rg : Residual} {u : Nat} {inner : InnerMap}
    (h : getA rg u = some inner) (v : Nat) (c : Int) :
    getIn (setIn rg u v c) u v = c := by
  unfold getIn
  rw [getA_setIn_self h v c, Option.getD_some, getA_setA_self, Option.getD_some]

theorem getIn_setIn_other_outer {rg : Residual} {u x : Nat} (hx : x ≠ u)
    (v y : Nat) (c : Int) : getIn (setIn rg u v c) x y = getIn rg x y := by
  unfold getIn
  rw [getA_setIn_other hx v c]

theorem getIn_setIn_other_inner {rg : Residual} {u v y : Nat} (hy : y ≠ v)
    (c : Int) : getIn (setIn rg u v c) u y = getIn rg u y := by
  unfold getIn setIn
  cases hg : getA rg u with
  | none => rw [hg]
  | some inner =>
    rw [getA_setA_self, Option.getD_some, getA_setA_ne _ _ hy,
      Option.getD_some]

theorem hasIn_iff_mem_keys {rg : Residual} {u v : Nat} :
    hasIn rg u v = true ↔ v ∈ keysA ((getA rg u).getD []) := by
  unfold hasIn
  constructor
  · exact fun h => mem_keysA_of_getA_isSome h
  · exact fun h => getA_isSome_of_mem h

theorem hasIn_outer_mem {rg : Residual} {u v : Nat} (h : hasIn rg u v = true) :
    u ∈ keysA rg := by
  by_contra hc
  rw [hasIn_iff_mem_keys, getA_eq_none_of_not_mem hc] at h
  simp at h

theorem getIn_pos_hasIn {rg : Residual} {u v : Nat} (h : 0 < getIn rg u v) :
    hasIn rg u v = true := by
  unfold getIn at h
  unfold hasIn
  cases hg : getA ((getA rg u).getD []) v with
  | none => rw [hg] at h; simp at h
  | some w => simp

theorem hasIn_setIn_iff {rg : Residual} {u : Nat} (hu : u ∈ keysA rg)
    (v : Nat) (c : Int) (x y : Nat) :
    hasIn (setIn rg u v c) x y = true ↔
      hasIn rg x y = true ∨ (x = u ∧ y = v) := by
  obtain ⟨inner, hinner⟩ := Option.isSome_iff_exists.1 (getA_isSome_of_mem hu)
  by_cases hx : x = u
  · subst hx
    rw [hasIn_iff_mem_keys, hasIn_iff_mem_keys, getA_setIn_self hinner,
      hinner, Option.getD_some, Option.getD_some, mem_keysA_setA]
    tauto
  · rw [hasIn_iff_mem_keys, hasIn_iff_mem_keys, getA_setIn_other hx]
    constructor
    · exact fun h => Or.inl h
    · rintro (h | ⟨h, _⟩)
      · exact h
      · exact absurd h hx

/-- Well-formedness of a residual graph over a node list. -/
structure ResWF (nodes : List Nat) (rg : Residual) : Prop where
  keysEq : keysA rg = nodes
  nd : nodes.Nodup
  innerNd : ∀ p ∈ rg, (keysA p.2).Nodup
  innerMem : ∀ p ∈ rg, ∀ q ∈ p.2, q.1 ∈ nodes
  symm : ∀ u v, hasIn rg u v = true → hasIn rg v u = true

/-- Two residual graphs with identical outer key sequences and identical
inner key sequences on every row.  Augmentation never creates or removes
residual entries, so it preserves this relation to the starting graph. -/
def SameKeys (rg rg' : Residual) : Prop :=
  keysA rg' = keysA rg ∧
  ∀ u, keysA ((getA rg' u).getD []) = keysA ((getA rg u).getD [])

theorem sameKeys_refl (rg : Residual) : SameKeys rg rg :=
  ⟨rfl, fun _ => rfl⟩

theorem sameKeys_hasIn {rg rg' : Residual} (h : SameKeys rg rg') (u v : Nat) :
    hasIn rg' u v = hasIn rg u v := by
  by_cases h1 : hasIn rg' u v = true
  · rw [h1]
    rw [hasIn_iff_mem_keys, h.2] at h1
    exact (hasIn_iff_mem_keys.2 h1).symm
  · rw [Bool.not_eq_true] at h1
    rw [h1]
    by_cases h2 : hasIn rg u v = true
    · rw [hasIn_iff_mem_keys, ← h.2] at h2
      rw [← Bool.not_eq_true] at h1
      exact absurd (hasIn_iff_mem_keys.2 h2) h1
    · rw [Bool.not_eq_true] at h2
      rw [h2]

/-- A `setIn` on an already-present residual entry preserves all key
sequences. -/
theorem sameKeys_setIn {rg rg' : Residual} (h : SameKeys rg rg')
    {u v : Nat} (hpresent : hasIn rg u v = true) (c : Int) :
    SameKeys rg (setIn rg' u v c) := by
  have hpres' : hasIn rg' u v = true := (sameKeys_hasIn h u v).trans hpresent
  have hu' : u ∈ keysA rg' := hasIn_outer_mem hpres'
  obtain ⟨inner, hinner⟩ := Option.isSome_iff_exists.1 (getA_isSome_of_mem hu')
  have hv : v ∈ keysA inner := by
    have h0 := hpres'
    rw [hasIn_iff_mem_keys, hinner, Option.getD_some] at h0
    exact h0
  constructor
  · rw [keysA_setIn, h.1]
  · intro x
    by_cases hx : x = u
    · subst hx
      rw [getA_setIn_self hinner, Option.getD_some,
        keysA_setA_of_mem _ hv, ← h.2, hinner, Option.getD_some]
    · rw [getA_setIn_other hx, h.2]

/-- `SameKeys` transports well-formedness. -/
theorem resWF_of_sameKeys {nodes : List Nat} {rg rg' : Residual}
    (hwf : ResWF nodes rg) (h : SameKeys rg rg') : ResWF nodes rg' := by
  refine ⟨h.1.trans hwf.keysEq, hwf.nd, ?_, ?_, ?_⟩
  · intro p hp
    have hp1 : p.1 ∈ keysA rg' := List.mem_map_of_mem Prod.fst hp
    have hnd' : (keysA rg').Nodup := by
      rw [h.1.trans hwf.keysEq]; exact hwf.nd
    have hget : getA rg' p.1 = some p.2 := getA_eq_of_mem_nodup hnd' hp
    have := h.2 p.1
    rw [hget, Option.getD_some] at this
    rw [this]
    cases hg : getA rg p.1 with
    | none => simp
    | some inner =>
      simp only [Option.getD_some]
      exact hwf.innerNd (p.1, inner) (mem_of_getA_eq_some hg)
  · intro p hp q hq
    have hnd' : (keysA rg').Nodup := by
      rw [h.1.trans hwf.keysEq]; exact hwf.nd
    have hget : getA rg' p.1 = some p.2 := getA_eq_of_mem_nodup hnd' hp
    have hkeys := h.2 p.1
    rw [hget, Option.getD_some] at hkeys
    have hq1 : q.1 ∈ keysA p.2 := List.mem_map_of_mem Prod.fst hq
    rw [hkeys] at hq1
    cases hg : getA rg p.1 with
    | none => rw [hg] at hq1; simp at hq1
    | some inner =>
      rw [hg] at hq1
      simp only [Option.getD_some] at hq1
      obtain ⟨r, hr, hr1⟩ := List.mem_map.1 hq1
      exact hr1 ▸ hwf.innerMem (p.1, inner) (mem_of_getA_eq_some hg) r hr
  · intro u v huv
    rw [sameKeys_hasIn h] at huv
    rw [sameKeys_hasIn h]
    exact hwf.symm u v huv

/-! ### The BFS parent chains of `bfsPath` -/

/-- `Reaches parent source v n`: following parent pointers from `v` hits
`source` within `n` steps. -/
def Reaches (parent : List (Nat × Nat)) (source : Nat) : Nat → Nat → Prop
  | 0, v => v = source
  | n + 1, v => v = source ∨ ∃ p, getA parent v = some p ∧
      Reaches parent source n p

/-- Extending the parent map with a fresh key preserves every chain. -/
theorem reaches_setA_fresh {parent : List (Nat × Nat)} {source v' u' : Nat}
    (hfresh : v' ∉ keysA parent) :
    ∀ n v, Reaches parent source n v → Reaches (setA parent v' u') source n v := by
  intro n
  induction n with
  | zero =>
    intro v h
    simp only [Reaches] at h
    simp only [Reaches]
    exact h
  | succ m ih =>
    intro v h
    simp only [Reaches] at h
    simp only [Reaches]
    rcases h with h | ⟨p, hp, hr⟩
    · exact Or.inl h
    · refine Or.inr ⟨p, ?_, ih p hr⟩
      have hv : v ≠ v' := by
        intro hc
        rw [hc, getA_eq_none_of_not_mem hfresh] at hp
        exact Option.noConfusion hp
      rw [getA_setA_ne _ _ hv]
      exact hp

/-- Generalised-accumulator form of `reconstruct`: the result is a fixed
source-to-current chain followed by the accumulator. -/
theorem reconstruct_acc (source : Nat) (parent : List (Nat × Nat)) :
    ∀ fuel v acc,
      reconstruct source parent fuel v acc =
        (reconstruct source parent fuel v []).map (· ++ acc) := by
  intro fuel
  induction fuel with
  | zero => intro v acc; rfl
  | succ n ih =>
    intro v acc
    rw [reconstruct, reconstruct]
    by_cases hv : v = source
    · rw [if_pos hv, if_pos hv]
      rfl
    · rw [if_neg hv, if_neg hv]
      cases hgp : getA parent v with
      | none => rfl
      | some p =>
        show reconstruct source parent n p (v :: acc) =
          Option.map (· ++ acc) (reconstruct source parent n p [v])
        rw [ih p (v :: acc), ih p [v]]
        cases reconstruct source parent n p [] with
        | none => rfl
        | some chain => simp

/-- Appending one element extends the edge list by one edge from the old
last element. -/
theorem pathEdges_append_single {l : List Nat} {a : Nat} (x : Nat)
    (h : l.getLast? = some a) :
    pathEdges (l ++ [x]) = pathEdges l ++ [(a, x)] := by
  induction l with
  | nil => simp at h
  | cons b rest ih =>
    match rest, h with
    | [], h =>
      rw [List.getLast?_singleton, Option.some_inj] at h
      subst h
      rfl
    | c :: rest', h =>
      have h' : (c :: rest').getLast? = some a := by
        rw [← h, List.getLast?_cons_cons]
      have := ih h'
      show pathEdges (b :: (c :: rest' ++ [x])) = _
      rw [show pathEdges (b :: (c :: rest' ++ [x])) =
        (b, c) :: pathEdges (c :: rest' ++ [x]) from rfl, this]
      rfl

/-- Both endpoints of a path edge are path members. -/
theorem pathEdges_mem {l : List Nat} {e : Nat × Nat} (h : e ∈ pathEdges l) :
    e.1 ∈ l ∧ e.2 ∈ l := by
  unfold pathEdges at h
  obtain ⟨e1, e2⟩ := e
  have := List.of_mem_zip h
  exact ⟨this.1, List.mem_of_mem_tail this.2⟩

/-- Specification of `reconstruct`: given a parent chain of length below
the fuel, it returns a non-empty chain from the source to the requested
node whose consecutive pairs are parent edges and whose tail avoids the
source. -/
theorem reconstruct_spec (source : Nat) (parent : List (Nat × Nat)) :
    ∀ n v, Reaches parent source n v → ∀ fuel, n < fuel →
      ∃ chain : List Nat,
        reconstruct source parent fuel v [] = some chain ∧
        chain.head? = some source ∧ chain.getLast? = some v ∧
        (∀ x ∈ chain.tail, x ≠ source) ∧
        ∀ e ∈ pathEdges chain, getA parent e.2 = some e.1 := by
  intro n
  induction n with
  | zero =>
    intro v h fuel hfuel
    simp only [Reaches] at h
    match fuel, hfuel with
    | m + 1, _ =>
      refine ⟨[source], ?_, rfl, ?_, by simp, by simp [pathEdges]⟩
      · rw [reconstruct, if_pos h]
      · rw [h]
        simp
  | succ m ih =>
    intro v h fuel hfuel
    by_cases hv : v = source
    · match fuel, hfuel with
      | k + 1, _ =>
        refine ⟨[source], ?_, rfl, ?_, by simp, by simp [pathEdges]⟩
        · rw [reconstruct, if_pos hv]
        · rw [hv]
          simp
    · simp only [Reaches] at h
      rcases h with h | ⟨p, hp, hr⟩
      · exact absurd h hv
      · match fuel, hfuel with
        | k + 1, hfuel =>
          obtain ⟨chain, hc, hhead, hlast, htail, hedges⟩ :=
            ih p hr k (by omega)
          have hne : chain ≠ [] := by
            intro hc0
            rw [hc0] at hhead
            exact Option.noConfusion hhead
          refine ⟨chain ++ [v], ?_, ?_, List.getLast?_concat chain, ?_, ?_⟩
          · rw [reconstruct, if_neg hv, hp]
            show reconstruct source parent k p (v :: []) = some (chain ++ [v])
            rw [reconstruct_acc, hc]
            rfl
          · rw [List.head?_append, hhead]
            rfl
          · match chain, hne, hhead, htail with
            | c0 :: ct, _, hhead, htail =>
              intro x hx
              rw [show (c0 :: ct ++ [v]).tail = ct ++ [v] from rfl] at hx
              rcases List.mem_append.1 hx with hx | hx
              · exact htail x hx
              · rw [List.mem_singleton] at hx
                rw [hx]
                exact hv
          · intro e he
            rw [pathEdges_append_single v hlast] at he
            rcases List.mem_append.1 he with he | he
            · exact hedges e he
            · rw [List.mem_singleton] at he
              rw [he]
              exact hp

/-! ### Specification of `bfsPath` -/

/-- The properties of every augmenting path produced by `bfsPath`: it
runs from the source to the sink, revisits the source nowhere, and walks
only residual edges of positive capacity. -/
def PathOK (rg : Residual) (source sink : Nat) (p : List Nat) : Prop :=
  p.head? = some source ∧ p.getLast? = some sink ∧
  (∀ x ∈ p.tail, x ≠ source) ∧ ∀ e ∈ pathEdges p, 0 < getIn rg e.1 e.2

/-- The invariant of the BFS inside `bfsPath`: queued nodes are visited,
parent entries record positive residual edges into visited nodes, every
visited node has a parent chain to the source no longer than the parent
map, and visited nodes are the source or residual-graph keys. -/
def BfsInv (rg : Residual) (source : Nat)
    (st : Finset Nat × List Nat × List (Nat × Nat)) : Prop :=
  source ∈ st.1 ∧
  (∀ x ∈ st.2.1, x ∈ st.1) ∧
  (∀ q ∈ st.2.2, 0 < getIn rg q.2 q.1) ∧
  (∀ q ∈ st.2.2, q.1 ∈ st.1) ∧
  (∀ v ∈ st.1, ∃ n, n ≤ st.2.2.length ∧ Reaches st.2.2 source n v) ∧
  st.1 ⊆ insert source (keysA rg).toFinset

/-- One neighbour scan of `bfsPath` preserves the invariant and does not
increase `queue length + unvisited keys`. -/
theorem bfsPathScan_inv (rg : Residual) (source u : Nat) :
    ∀ (entries : InnerMap),
    (∀ q ∈ entries, q.1 ∈ keysA rg ∧ getIn rg u q.1 = q.2) →
    ∀ st, BfsInv rg source st → u ∈ st.1 →
    (BfsInv rg source (bfsPathScan entries u st) ∧
      st.1 ⊆ (bfsPathScan entries u st).1 ∧
      (bfsPathScan entries u st).2.1.length +
          ((keysA rg).toFinset \ (bfsPathScan entries u st).1).card ≤
        st.2.1.length + ((keysA rg).toFinset \ st.1).card) := by
  intro entries
  induction entries with
  | nil =>
    intro _ st hinv _
    exact ⟨hinv, fun _ h => h, le_refl _⟩
  | cons p rest ih =>
    intro hent st hinv hu
    rw [show bfsPathScan (p :: rest) u st =
      bfsPathScan rest u
        (if p.1 ∉ st.1 ∧ p.2 > 0 then
          (insert p.1 st.1, st.2.1 ++ [p.1], setA st.2.2 p.1 u)
        else st) from rfl]
    have hrest : ∀ q ∈ rest, q.1 ∈ keysA rg ∧ getIn rg u q.1 = q.2 :=
      fun q hq => hent q (List.mem_cons_of_mem _ hq)
    by_cases hc : p.1 ∉ st.1 ∧ p.2 > 0
    · rw [if_pos hc]
      obtain ⟨hsrc, hque, hppos, hpdom, hreach, hbound⟩ := hinv
      have hfresh : p.1 ∉ keysA st.2.2 := by
        intro hx
        obtain ⟨q, hq, hq1⟩ := List.mem_map.1 hx
        exact hc.1 (hq1 ▸ hpdom q hq)
      have hinv' : BfsInv rg source
          (insert p.1 st.1, st.2.1 ++ [p.1], setA st.2.2 p.1 u) := by
        refine ⟨Finset.mem_insert_of_mem hsrc, ?_, ?_, ?_, ?_, ?_⟩
        · intro x hx
          rcases List.mem_append.1 hx with hx | hx
          · exact Finset.mem_insert_of_mem (hque x hx)
          · rw [List.mem_singleton] at hx
            rw [hx]
            exact Finset.mem_insert_self _ _
        · intro q hq
          rcases mem_setA hq with hq | hq
          · exact hppos q hq
          · rw [hq]
            show 0 < getIn rg u p.1
            rw [(hent p (List.mem_cons_self _ _)).2]
            exact hc.2
        · intro q hq
          rcases mem_setA hq with hq | hq
          · exact Finset.mem_insert_of_mem (hpdom q hq)
          · rw [hq]
            exact Finset.mem_insert_self _ _
        · intro v hv
          rcases Finset.mem_insert.1 hv with hv | hv
          · obtain ⟨n, hn, hr⟩ := hreach u hu
            refine ⟨n + 1, ?_, ?_⟩
            · rw [length_setA_of_not_mem _ hfresh]
              omega
            · simp only [Reaches]
              refine Or.inr ⟨u, ?_, reaches_setA_fresh hfresh n u hr⟩
              rw [hv]
              exact getA_setA_self _ _ _
          · obtain ⟨n, hn, hr⟩ := hreach v hv
            refine ⟨n, ?_, reaches_setA_fresh hfresh n v hr⟩
            rw [length_setA_of_not_mem _ hfresh]
            omega
        · intro x hx
          rcases Finset.mem_insert.1 hx with hx | hx
          · rw [hx]
            exact Finset.mem_insert_of_mem
              (List.mem_toFinset.2 (hent p (List.mem_cons_self _ _)).1)
          · exact hbound hx
      have hu' : u ∈ insert p.1 st.1 := Finset.mem_insert_of_mem hu
      obtain ⟨a1, a2, a3⟩ := ih hrest _ hinv' hu'
      refine ⟨a1, fun x hx => a2 (Finset.mem_insert_of_mem hx), ?_⟩
      refine a3.trans ?_
      have hmem : p.1 ∈ (keysA rg).toFinset \ st.1 :=
        Finset.mem_sdiff.2
          ⟨List.mem_toFinset.2 (hent p (List.mem_cons_self _ _)).1, hc.1⟩
      have hsd : (keysA rg).toFinset \ insert p.1 st.1 =
          ((keysA rg).toFinset \ st.1).erase p.1 := by
        ext x
        simp [Finset.mem_sdiff, Finset.mem_erase]
        tauto
      rw [List.length_append, List.length_singleton, hsd,
        Finset.card_erase_of_mem hmem]
      have : 0 < ((keysA rg).toFinset \ st.1).card :=
        Finset.card_pos.2 ⟨p.1, hmem⟩
      omega
    · rw [if_neg hc]
      exact ih hrest st hinv hu

/-- The BFS loop of `bfsPath`, run with fuel exceeding
`queue length + unvisited keys`, either reports that no augmenting path
exists or returns a path satisfying `PathOK`. -/
theorem bfsPathLoop_spec (rg : Residual) (source sink : Nat)
    (hinner : ∀ p ∈ rg, ∀ q ∈ p.2, q.1 ∈ keysA rg)
    (hinnerNd : ∀ p ∈ rg, (keysA p.2).Nodup) :
    ∀ fuel visited queue parent,
    BfsInv rg source (visited, queue, parent) →
    queue.length + ((keysA rg).toFinset \ visited).card < fuel →
    bfsPathLoop rg source sink fuel visited queue parent = some none ∨
    ∃ p, bfsPathLoop rg source sink fuel visited queue parent = some (some p) ∧
      PathOK rg source sink p := by
  intro fuel
  induction fuel with
  | zero => intro visited queue parent _ h; omega
  | succ n ih =>
    intro visited queue parent hinv hmeas
    match queue with
    | [] =>
      left
      rfl
    | u :: rest =>
      obtain ⟨hsrc, hque, hppos, hpdom, hreach, hbound⟩ := hinv
      by_cases hu : u = sink
      · subst hu
        have husink : u ∈ visited := hque u (List.mem_cons_self _ _)
        obtain ⟨m, hm, hr⟩ := hreach u husink
        have hm' : m ≤ parent.length := hm
        obtain ⟨chain, hc, hhead, hlast, htail, hedges⟩ :=
          reconstruct_spec source parent m u hr (parent.length + 1)
            (Nat.lt_succ_of_le hm')
        right
        refine ⟨chain, ?_, hhead, hlast, htail, ?_⟩
        · rw [bfsPathLoop, if_pos rfl, hc]
        · intro e he
          have hmem := mem_of_getA_eq_some (hedges e he)
          have := hppos (e.2, e.1) hmem
          exact this
      · rw [bfsPathLoop, if_neg hu]
        have hu' : u ∈ visited := hque u (List.mem_cons_self _ _)
        have hent : ∀ q ∈ (getA rg u).getD [],
            q.1 ∈ keysA rg ∧ getIn rg u q.1 = q.2 := by
          intro q hq
          cases hg : getA rg u with
          | none => rw [hg] at hq; simp at hq
          | some inner =>
            rw [hg, Option.getD_some] at hq
            have hmem := mem_of_getA_eq_some hg
            refine ⟨hinner (u, inner) hmem q hq, ?_⟩
            unfold getIn
            rw [hg, Option.getD_some,
              getA_eq_of_mem_nodup (hinnerNd (u, inner) hmem) hq,
              Option.getD_some]
        have hinvr : BfsInv rg source (visited, rest, parent) :=
          ⟨hsrc, fun x hx => hque x (List.mem_cons_of_mem _ hx),
            hppos, hpdom, hreach, hbound⟩
        obtain ⟨a1, _, a3⟩ :=
          bfsPathScan_inv rg source u ((getA rg u).getD []) hent
            (visited, rest, parent) hinvr hu'
        set st := bfsPathScan ((getA rg u).getD []) u (visited, rest, parent)
          with hst
        have a3' : st.2.1.length + ((keysA rg).toFinset \ st.1).card ≤
            rest.length + ((keysA rg).toFinset \ visited).card := a3
        have := ih st.1 st.2.1 st.2.2 a1 (by
          rw [List.length_cons] at hmeas
          omega)
        exact this

/-- `bfsPath` on a well-formed residual graph with the source among its
keys never runs out of fuel: it returns `null` or a `PathOK` path. -/
theorem bfsPath_spec (rg : Residual) (source sink : Nat)
    (hinner : ∀ p ∈ rg, ∀ q ∈ p.2, q.1 ∈ keysA rg)
    (hinnerNd : ∀ p ∈ rg, (keysA p.2).Nodup)
    (hsource : source ∈ keysA rg) :
    bfsPath rg source sink = some none ∨
    ∃ p, bfsPath rg source sink = some (some p) ∧ PathOK rg source sink p := by
  have hinv : BfsInv rg source ({source}, [source], []) := by
    refine ⟨Finset.mem_singleton_self _, ?_, ?_, ?_, ?_, ?_⟩
    · intro x hx
      rw [List.mem_singleton] at hx
      rw [hx]
      exact Finset.mem_singleton_self _
    · intro q hq; simp at hq
    · intro q hq; simp at hq
    · intro v hv
      rw [Finset.mem_singleton] at hv
      exact ⟨0, le_refl _, by simp only [Reaches]; exact hv⟩
    · intro x hx
      rw [Finset.mem_singleton] at hx
      rw [hx]
      exact Finset.mem_insert_self _ _
  have hcard : ((keysA rg).toFinset \ {source}).card < rg.length := by
    have h1 : ((keysA rg).toFinset \ {source}).card =
        (keysA rg).toFinset.card - 1 := by
      rw [Finset.card_sdiff (by
        intro x hx
        rw [Finset.mem_singleton] at hx
        rw [hx]
        exact List.mem_toFinset.2 hsource)]
      simp
    have h2 : (keysA rg).toFinset.card ≤ rg.length := by
      calc (keysA rg).toFinset.card ≤ (keysA rg).length := List.toFinset_card_le _
        _ = rg.length := List.length_map _ _
    have h3 : 0 < (keysA rg).toFinset.card :=
      Finset.card_pos.2 ⟨source, List.mem_toFinset.2 hsource⟩
    omega
  have := bfsPathLoop_spec rg source sink hinner hinnerNd (rg.length + 1)
    {source} [source] [] hinv (by
      rw [List.length_singleton]
      omega)
  exact this

/-! ### The augmentation step -/

theorem foldl_min_le_init (rg : Residual) :
    ∀ (l : List (Nat × Nat)) (a : Int),
      l.foldl (fun acc p => min acc (getIn rg p.1 p.2)) a ≤ a := by
  intro l
  induction l with
  | nil => intro a; exact le_refl a
  | cons p rest ih =>
    intro a
    calc rest.foldl (fun acc q => min acc (getIn rg q.1 q.2))
          (min a (getIn rg p.1 p.2)) ≤ min a (getIn rg p.1 p.2) := ih _
      _ ≤ a := min_le_left _ _

theorem foldl_min_ge (rg : Residual) :
    ∀ (l : List (Nat × Nat)) (a c : Int), c ≤ a →
      (∀ p ∈ l, c ≤ getIn rg p.1 p.2) →
      c ≤ l.foldl (fun acc p => min acc (getIn rg p.1 p.2)) a := by
  intro l
  induction l with
  | nil => intro a c hc _; exact hc
  | cons p rest ih =>
    intro a c hc h
    exact ih _ c (le_min hc (h p (List.mem_cons_self _ _)))
      (fun q hq => h q (List.mem_cons_of_mem _ hq))

/-- The bottleneck never exceeds the first edge's residual capacity. -/
theorem bottleneck_le_first (rg : Residual) (e : Nat × Nat)
    (es : List (Nat × Nat)) : bottleneck rg e es ≤ getIn rg e.1 e.2 :=
  foldl_min_le_init rg es _

/-- Over integer residuals, a path of positive residual edges has
bottleneck at least 1 — the heart of the termination argument. -/
theorem bottleneck_pos (rg : Residual) (e : Nat × Nat) (es : List (Nat × Nat))
    (h : ∀ x ∈ e :: es, 0 < getIn rg x.1 x.2) : 1 ≤ bottleneck rg e es := by
  unfold bottleneck
  refine foldl_min_ge rg es _ 1 ?_ ?_
  · have := h e (List.mem_cons_self _ _)
    omega
  · intro p hp
    have := h p (List.mem_cons_of_mem _ hp)
    omega

/-- A `PathOK` path between distinct endpoints has at least one edge. -/
theorem pathOK_decompose {rg : Residual} {source sink : Nat} {p : List Nat}
    (h : PathOK rg source sink p) (hne : source ≠ sink) :
    ∃ v1 rest, p = source :: v1 :: rest := by
  obtain ⟨hhead, hlast, _, _⟩ := h
  match p, hhead, hlast with
  | [x], hhead, hlast =>
    rw [List.head?_cons, Option.some_inj] at hhead
    rw [List.getLast?_singleton, Option.some_inj] at hlast
    exact absurd (hhead ▸ hlast) hne
  | x :: y :: rest, hhead, _ =>
    rw [List.head?_cons, Option.some_inj] at hhead
    exact ⟨y, rest, by rw [hhead]⟩

theorem pathEdges_cons_cons (a b : Nat) (l : List Nat) :
    pathEdges (a :: b :: l) = (a, b) :: pathEdges (b :: l) := rfl

/-- Augmentation along edges avoiding the source leaves the source's
residual row untouched. -/
theorem augment_row_other {source : Nat} (f : Int) :
    ∀ (es : List (Nat × Nat)) (rg1 : Residual),
      (∀ e ∈ es, e.1 ≠ source ∧ e.2 ≠ source) →
      getA (augment rg1 es f) source = getA rg1 source := by
  intro es
  induction es with
  | nil => intro rg1 _; rfl
  | cons e rest ih =>
    intro rg1 hes
    have he := hes e (List.mem_cons_self _ _)
    rw [show augment rg1 (e :: rest) f = augment
      (setIn (setIn rg1 e.1 e.2 (getIn rg1 e.1 e.2 - f)) e.2 e.1
        (getIn (setIn rg1 e.1 e.2 (getIn rg1 e.1 e.2 - f)) e.2 e.1 + f))
      rest f from rfl]
    rw [ih _ (fun x hx => hes x (List.mem_cons_of_mem _ hx)),
      getA_setIn_other (Ne.symm he.2), getA_setIn_other (Ne.symm he.1)]

/-- The source's residual row after one full augmentation: only the entry
of the path's first edge changes, decreasing by the bottleneck. -/
theorem augment_source_row {rg : Residual} {source v1 : Nat} {inner : InnerMap}
    (hinner : getA rg source = some inner) (hv1 : v1 ≠ source)
    (es : List (Nat × Nat)) (hes : ∀ e ∈ es, e.1 ≠ source ∧ e.2 ≠ source)
    (f : Int) :
    getA (augment rg ((source, v1) :: es) f) source =
      some (setA inner v1 (getIn rg source v1 - f)) := by
  rw [show augment rg ((source, v1) :: es) f = augment
    (setIn (setIn rg source v1 (getIn rg source v1 - f)) v1 source
      (getIn (setIn rg source v1 (getIn rg source v1 - f)) v1 source + f))
    es f from rfl]
  rw [augment_row_other f es _ hes, getA_setIn_other (Ne.symm hv1),
    getA_setIn_self hinner]

/-- Augmentation along edges present in both directions preserves every
key sequence of the residual graph. -/
theorem augment_sameKeys {rg : Residual} (f : Int) :
    ∀ (es : List (Nat × Nat)) (rg1 : Residual),
      SameKeys rg rg1 →
      (∀ e ∈ es, hasIn rg e.1 e.2 = true ∧ hasIn rg e.2 e.1 = true) →
      SameKeys rg (augment rg1 es f) := by
  intro es
  induction es with
  | nil => intro rg1 h _; exact h
  | cons e rest ih =>
    intro rg1 h hes
    have he := hes e (List.mem_cons_self _ _)
    rw [show augment rg1 (e :: rest) f = augment
      (setIn (setIn rg1 e.1 e.2 (getIn rg1 e.1 e.2 - f)) e.2 e.1
        (getIn (setIn rg1 e.1 e.2 (getIn rg1 e.1 e.2 - f)) e.2 e.1 + f))
      rest f from rfl]
    exact ih _ (sameKeys_setIn (sameKeys_setIn h he.1 _) he.2 _)
      (fun x hx => hes x (List.mem_cons_of_mem _ hx))

/-- One iteration of the Edmonds–Karp loop on a well-formed residual
graph with distinct endpoints: either no augmenting path exists, or the
residual graph is augmented by a bottleneck of at least 1, the source's
outgoing residual total drops by exactly that bottleneck,
well-formedness is preserved, and entrywise non-negativity of the
source row is preserved. -/
theorem ekStep_spec {nodes : List Nat} {rg : Residual} (source sink : Nat)
    (hwf : ResWF nodes rg) (hsrc : source ∈ nodes) (hne : source ≠ sink) :
    ekStep rg source sink = .noPath ∨
    ∃ rg' f, ekStep rg source sink = .augmentPath rg' f ∧ 1 ≤ f ∧
      ResWF nodes rg' ∧
      sourceOut rg' source = sourceOut rg source - f ∧
      ((∀ q ∈ (getA rg source).getD [], 0 ≤ q.2) →
        ∀ q ∈ (getA rg' source).getD [], 0 ≤ q.2) := by
  have hinner : ∀ p ∈ rg, ∀ q ∈ p.2, q.1 ∈ keysA rg := by
    intro p hp q hq
    rw [hwf.keysEq]
    exact hwf.innerMem p hp q hq
  have hsource : source ∈ keysA rg := by rw [hwf.keysEq]; exact hsrc
  rcases bfsPath_spec rg source sink hinner hwf.innerNd hsource with hb | ⟨p, hb, hOK⟩
  · left
    rw [ekStep, hb]
  · right
    obtain ⟨v1, rest, hp⟩ := pathOK_decompose hOK hne
    obtain ⟨hhead, hlast, htail, hedges⟩ := hOK
    subst hp
    rw [pathEdges_cons_cons] at hedges
    have hv1 : v1 ≠ source := htail v1 (List.mem_cons_self _ _)
    have hes : ∀ e ∈ pathEdges (v1 :: rest), e.1 ≠ source ∧ e.2 ≠ source := by
      intro e he
      have hm := pathEdges_mem he
      exact ⟨htail e.1 hm.1, htail e.2 hm.2⟩
    have hboth : ∀ e ∈ (source, v1) :: pathEdges (v1 :: rest),
        hasIn rg e.1 e.2 = true ∧ hasIn rg e.2 e.1 = true := by
      intro e he
      have hpos := hedges e he
      exact ⟨getIn_pos_hasIn hpos, hwf.symm _ _ (getIn_pos_hasIn hpos)⟩
    obtain ⟨inner, hinnerS⟩ :=
      Option.isSome_iff_exists.1 (getA_isSome_of_mem hsource)
    set f := bottleneck rg (source, v1) (pathEdges (v1 :: rest)) with hf
    set rg' := augment rg ((source, v1) :: pathEdges (v1 :: rest)) f with hrg'
    have hstep : ekStep rg source sink = .augmentPath rg' f := by
      rw [ekStep, hb]
      rfl
    have hf1 : 1 ≤ f := bottleneck_pos rg _ _ hedges
    have hfw : f ≤ getIn rg source v1 := bottleneck_le_first rg _ _
    have hsk : SameKeys rg rg' :=
      augment_sameKeys f _ rg (sameKeys_refl rg) hboth
    have hrow : getA rg' source =
        some (setA inner v1 (getIn rg source v1 - f)) :=
      augment_source_row hinnerS hv1 _ hes f
    have hpos1 : 0 < getIn rg source v1 :=
      hedges (source, v1) (List.mem_cons_self _ _)
    have hgv1 : getA inner v1 = some (getIn rg source v1) := by
      have : getIn rg source v1 = (getA inner v1).getD 0 := by
        unfold getIn
        rw [hinnerS, Option.getD_some]
      cases hg : getA inner v1 with
      | none =>
        rw [hg] at this
        simp at this
        omega
      | some w => rw [hg] at this; simp at this; rw [this]
    refine ⟨rg', f, hstep, hf1, resWF_of_sameKeys hwf hsk, ?_, ?_⟩
    · show innerSum ((getA rg' source).getD []) =
        innerSum ((getA rg source).getD []) - f
      rw [hrow, hinnerS, Option.getD_some, Option.getD_some,
        innerSum_setA_of_getA _ hgv1]
      ring
    · intro hnn q hq
      rw [hrow, Option.getD_some] at hq
      rcases mem_setA hq with hq | hq
      · exact hnn q (by rw [hinnerS, Option.getD_some]; exact hq)
      · rw [hq]
        show 0 ≤ getIn rg source v1 - f
        omega

/-- The Edmonds–Karp loop, with fuel exceeding the source's outgoing
residual total, terminates with a flow value bounded by
`initial flow + that total`. -/
theorem ekLoop_spec {nodes : List Nat} (source sink : Nat)
    (hsrc : source ∈ nodes) (hne : source ≠ sink) :
    ∀ (fuel : Nat) (rg : Residual) (tv : Int) (n : Nat),
    ResWF nodes rg →
    (∀ q ∈ (getA rg source).getD [], 0 ≤ q.2) →
    (sourceOut rg source).toNat ≤ n → n < fuel →
    ∃ v : Int,
      ekLoop source sink fuel rg ((tv : Int) : WithTop Int) =
        some ((v : Int) : WithTop Int) ∧
      v ≤ tv + sourceOut rg source := by
  intro fuel
  induction fuel with
  | zero => intro rg tv n _ _ _ h; omega
  | succ m ih =>
    intro rg tv n hwf hnn hcnt hfuel
    have hout : 0 ≤ sourceOut rg source := innerSum_nonneg hnn
    rcases ekStep_spec source sink hwf hsrc hne with hstep | ⟨rg', f, hstep, hf1, hwf', hso, hnn'⟩
    · refine ⟨tv, ?_, by omega⟩
      rw [ekLoop, hstep]
    · have hnn'' := hnn' hnn
      have hout' : 0 ≤ sourceOut rg' source := innerSum_nonneg hnn''
      have hfle : f ≤ sourceOut rg source := by omega
      have hn1 : 1 ≤ n := by
        have : (1 : Int) ≤ sourceOut rg source := by omega
        omega
      obtain ⟨v, hv, hvle⟩ := ih rg' (tv + f) (n - 1) hwf' hnn''
        (by omega) (by omega)
      refine ⟨v, ?_, by omega⟩
      have hco : ((tv : Int) : WithTop Int) + ((f : Int) : WithTop Int) =
          (((tv + f : Int)) : WithTop Int) := by
        push_cast
        ring
      simp only [ekLoop, hstep]
      rw [hco]
      exact hv

/-! ### The residual graph built by `maxFlow` -/

/-- The body of `buildResidual`'s fold, named for the proofs. -/
def buildStep (rg : Residual) (p : (Nat × Nat) × Int) : Residual :=
  let rg := setIn rg p.1.1 p.1.2 p.2
  if hasIn rg p.1.2 p.1.1 then rg else setIn rg p.1.2 p.1.1 0

theorem buildResidual_eq (nodes : List Nat) (cap : List ((Nat × Nat) × Int)) :
    buildResidual nodes cap =
      cap.foldl buildStep (nodes.map (fun n => (n, ([] : InnerMap)))) := rfl

/-- The symmetry-free part of residual well-formedness, plus entrywise
non-negativity, maintained through the construction. -/
def BuildPre (nodes : List Nat) (rg : Residual) : Prop :=
  keysA rg = nodes ∧
  (∀ p ∈ rg, (keysA p.2).Nodup) ∧
  (∀ p ∈ rg, ∀ q ∈ p.2, q.1 ∈ nodes) ∧
  (∀ p ∈ rg, ∀ q ∈ p.2, 0 ≤ q.2)

/-- Every stored reverse residual entry exists. -/
def Symm (rg : Residual) : Prop :=
  ∀ u v, hasIn rg u v = true → hasIn rg v u = true

theorem setIn_of_getA_none {rg : Residual} {u : Nat}
    (h : getA rg u = none) (v : Nat) (c : Int) : setIn rg u v c = rg := by
  unfold setIn
  rw [h]

theorem buildPre_setIn {nodes : List Nat} {rg : Residual}
    (hpre : BuildPre nodes rg) {u v : Nat} {c : Int}
    (hv : v ∈ nodes) (hc : 0 ≤ c) : BuildPre nodes (setIn rg u v c) := by
  obtain ⟨h1, h2, h3, h4⟩ := hpre
  cases hg : getA rg u with
  | none => rw [setIn_of_getA_none hg]; exact ⟨h1, h2, h3, h4⟩
  | some inner =>
    have hmem : (u, inner) ∈ rg := mem_of_getA_eq_some hg
    have hset : setIn rg u v c = setA rg u (setA inner v c) := by
      unfold setIn
      rw [hg]
    rw [hset]
    refine ⟨?_, ?_, ?_, ?_⟩
    · rw [keysA_setA_of_mem _ (by
        rw [h1]
        rw [← h1]
        exact mem_keysA_of_getA_isSome (by rw [hg]; rfl)), h1]
    · intro p hp
      rcases mem_setA hp with hp | hp
      · exact h2 p hp
      · rw [hp]
        exact keysA_nodup_setA _ _ (h2 (u, inner) hmem)
    · intro p hp q hq
      rcases mem_setA hp with hp | hp
      · exact h3 p hp q hq
      · rw [hp] at hq
        rcases mem_setA hq with hq | hq
        · exact h3 (u, inner) hmem q hq
        · rw [hq]; exact hv
    · intro p hp q hq
      rcases mem_setA hp with hp | hp
      · exact h4 p hp q hq
      · rw [hp] at hq
        rcases mem_setA hq with hq | hq
        · exact h4 (u, inner) hmem q hq
        · rw [hq]; exact hc

/-- Effect of one `setIn` on the source's outgoing residual total. -/
theorem sourceOut_setIn_le {nodes : List Nat} {rg : Residual} (source : Nat)
    (hpre : BuildPre nodes rg) (u v : Nat) {c : Int} (hc : 0 ≤ c) :
    sourceOut (setIn rg u v c) source ≤
      sourceOut rg source + (if u = source then c else 0) := by
  by_cases hu : u = source
  · subst hu
    rw [if_pos rfl]
    cases hg : getA rg u with
    | none =>
      rw [setIn_of_getA_none hg]
      omega
    | some inner =>
      show innerSum ((getA (setIn rg u v c) u).getD []) ≤
        innerSum ((getA rg u).getD []) + c
      rw [getA_setIn_self hg, hg, Option.getD_some, Option.getD_some]
      cases hgv : getA inner v with
      | none =>
        rw [innerSum_setA_of_not_mem _ hgv]
      | some w =>
        have hw : 0 ≤ w :=
          hpre.2.2.2 (u, inner) (mem_of_getA_eq_some hg) (v, w)
            (mem_of_getA_eq_some hgv)
        rw [innerSum_setA_of_getA _ hgv]
        omega
  · rw [if_neg hu]
    show innerSum ((getA (setIn rg u v c) source).getD []) ≤
      innerSum ((getA rg source).getD []) + 0
    rw [getA_setIn_other (Ne.symm hu)]
    omega

/-- One step of the residual construction keeps the invariants and
increases the source's outgoing total by at most the processed
capacity. -/
theorem buildStep_inv {nodes : List Nat} {rg : Residual} (source : Nat)
    (hpre : BuildPre nodes rg) (hsymm : Symm rg)
    {p : (Nat × Nat) × Int} (hp1 : p.1.1 ∈ nodes) (hp2 : p.1.2 ∈ nodes)
    (hc : 0 < p.2) :
    BuildPre nodes (buildStep rg p) ∧ Symm (buildStep rg p) ∧
    sourceOut (buildStep rg p) source ≤
      sourceOut rg source + (if p.1.1 = source then p.2 else 0) := by
  obtain ⟨⟨a, b⟩, c⟩ := p
  simp only at hp1 hp2 hc
  set rg1 := setIn rg a b c with hrg1
  have hpre1 : BuildPre nodes rg1 := buildPre_setIn hpre hp2 (le_of_lt hc)
  have hiff1 : ∀ x y, hasIn rg1 x y = true ↔
      hasIn rg x y = true ∨ (x = a ∧ y = b) :=
    fun x y => hasIn_setIn_iff (by rw [hpre.1]; exact hp1) b c x y
  have hso1 : sourceOut rg1 source ≤
      sourceOut rg source + (if a = source then c else 0) :=
    sourceOut_setIn_le source hpre a b (le_of_lt hc)
  by_cases hrev : hasIn rg1 b a = true
  · have hstep : buildStep rg ((a, b), c) = rg1 := by
      unfold buildStep
      simp only [hrev, if_true]
    rw [hstep]
    refine ⟨hpre1, ?_, hso1⟩
    intro x y h
    rcases (hiff1 x y).1 h with h | ⟨hx, hy⟩
    · exact (hiff1 y x).2 (Or.inl (hsymm x y h))
    · subst hx; subst hy
      exact hrev
  · have hstep : buildStep rg ((a, b), c) = setIn rg1 b a 0 := by
      unfold buildStep
      simp only [hrev, if_false]
      rfl
    rw [hstep]
    have hpre2 : BuildPre nodes (setIn rg1 b a 0) :=
      buildPre_setIn hpre1 hp1 (le_refl 0)
    have hiff2 : ∀ x y, hasIn (setIn rg1 b a 0) x y = true ↔
        hasIn rg1 x y = true ∨ (x = b ∧ y = a) :=
      fun x y => hasIn_setIn_iff (by rw [hpre1.1]; exact hp2) a 0 x y
    refine ⟨hpre2, ?_, ?_⟩
    · intro x y h
      rcases (hiff2 x y).1 h with h | ⟨hx, hy⟩
      · rcases (hiff1 x y).1 h with h | ⟨hx, hy⟩
        · exact (hiff2 y x).2 (Or.inl ((hiff1 y x).2 (Or.inl (hsymm x y h))))
        · rw [hx, hy]
          exact (hiff2 b a).2 (Or.inr ⟨rfl, rfl⟩)
      · rw [hx, hy]
        exact (hiff2 a b).2 (Or.inl ((hiff1 a b).2 (Or.inr ⟨rfl, rfl⟩)))
    · have h2 : sourceOut (setIn rg1 b a 0) source ≤
          sourceOut rg1 source + (if b = source then 0 else 0) :=
        sourceOut_setIn_le source hpre1 b a (le_refl 0)
      rw [ite_self] at h2
      show sourceOut (setIn rg1 b a 0) source ≤
        sourceOut rg source + (if a = source then c else 0)
      omega

/-- Folding all capacity entries keeps the invariants and bounds the
source's outgoing residual total by the processed source capacities. -/
theorem buildFold_inv (nodes : List Nat) (source : Nat) :
    ∀ (caps : List ((Nat × Nat) × Int)) (rg : Residual),
    (∀ q ∈ caps, 0 < q.2 ∧ q.1.1 ∈ nodes ∧ q.1.2 ∈ nodes) →
    BuildPre nodes rg → Symm rg →
    BuildPre nodes (caps.foldl buildStep rg) ∧
    Symm (caps.foldl buildStep rg) ∧
    sourceOut (caps.foldl buildStep rg) source ≤ sourceOut rg source +
      (caps.map (fun q => if q.1.1 = source then q.2 else 0)).sum := by
  intro caps
  induction caps with
  | nil =>
    intro rg _ hpre hsymm
    exact ⟨hpre, hsymm, by simp⟩
  | cons p rest ih =>
    intro rg hcaps hpre hsymm
    have hp := hcaps p (List.mem_cons_self _ _)
    obtain ⟨h1, h2, h3⟩ := buildStep_inv source hpre hsymm hp.2.1 hp.2.2 hp.1
    obtain ⟨a1, a2, a3⟩ := ih (buildStep rg p)
      (fun q hq => hcaps q (List.mem_cons_of_mem _ hq)) h1 h2
    refine ⟨a1, a2, ?_⟩
    rw [List.foldl_cons] at *
    rw [List.map_cons, List.sum_cons]
    omega

/-- Every entry of the capacity map comes from some edge of the list. -/
theorem buildCapacity_members :
    ∀ (es : List GraphEdge) (m : List ((Nat × Nat) × Int)),
    ∀ q ∈ es.foldl (fun m e => setA m (e.efrom, e.eto) (capVal e)) m,
      q ∈ m ∨ ∃ e ∈ es, q = ((e.efrom, e.eto), capVal e) := by
  intro es
  induction es with
  | nil => intro m q hq; exact Or.inl hq
  | cons e rest ih =>
    intro m q hq
    rw [List.foldl_cons] at hq
    rcases ih _ q hq with hq | ⟨e', he', hq⟩
    · rcases mem_setA hq with hq | hq
      · exact Or.inl hq
      · exact Or.inr ⟨e, List.mem_cons_self _ _, hq⟩
    · exact Or.inr ⟨e', List.mem_cons_of_mem _ he', hq⟩

/-- With positive declared capacities, `capacity || 1` is positive. -/
theorem capVal_pos {e : GraphEdge}
    (hpos : ∀ c, e.capacity = some c → 0 < c) : 0 < capVal e := by
  unfold capVal
  cases hc : e.capacity with
  | none =>
    show (0 : Int) < 1
    norm_num
  | some c =>
    show 0 < if c = 0 then 1 else c
    by_cases h0 : c = 0
    · rw [if_pos h0]
      norm_num
    · rw [if_neg h0]
      exact hpos c hc

/-- Total of the source-keyed entries of a capacity map. -/
def capSrcSum (source : Nat) (m : List ((Nat × Nat) × Int)) : Int :=
  (m.map (fun q => if q.1.1 = source then q.2 else 0)).sum

/-- C8's bound target: the total capacity of the edges leaving the
source (`capacity || 1` per edge, as the solver reads them). -/
def sourceCapSum (g : GraphData) (source : Nat) : Int :=
  (g.edges.map (fun e => if e.efrom = source then capVal e else 0)).sum

/-- Overwriting one capacity entry adds at most the new capacity to the
source-keyed total (the displaced value is non-negative). -/
theorem capSrcSum_setA_le (source : Nat) :
    ∀ (m : List ((Nat × Nat) × Int)) (a b : Nat) (c : Int),
    (∀ q ∈ m, 0 ≤ q.2) →
    capSrcSum source (setA m (a, b) c) ≤
      capSrcSum source m + (if a = source then c else 0) := by
  intro m
  induction m with
  | nil =>
    intro a b c _
    unfold capSrcSum setA
    simp
  | cons p rest ih =>
    intro a b c hnn
    by_cases hp : p.1 = (a, b)
    · rw [show setA (p :: rest) (a, b) c = ((a, b), c) :: rest
        by simp [setA, hp]]
      unfold capSrcSum
      rw [List.map_cons, List.sum_cons, List.map_cons, List.sum_cons]
      dsimp only
      have hfst : p.1.1 = a := by rw [hp]
      have hnp : 0 ≤ p.2 := hnn p (List.mem_cons_self _ _)
      rw [hfst]
      by_cases ha : a = source
      · omega
      · omega
    · rw [show setA (p :: rest) (a, b) c = p :: setA rest (a, b) c
        by simp [setA, hp]]
      have := ih a b c (fun q hq => hnn q (List.mem_cons_of_mem _ hq))
      unfold capSrcSum at *
      rw [List.map_cons, List.sum_cons, List.map_cons, List.sum_cons]
      omega

/-- The capacity map's source-keyed total is bounded by the edge list's
source capacities. -/
theorem capSrcSum_fold_le (source : Nat) :
    ∀ (es : List GraphEdge) (m : List ((Nat × Nat) × Int)),
    (∀ q ∈ m, 0 ≤ q.2) →
    (∀ e ∈ es, 0 < capVal e) →
    (∀ q ∈ es.foldl (fun m e => setA m (e.efrom, e.eto) (capVal e)) m, 0 ≤ q.2) ∧
    capSrcSum source (es.foldl (fun m e => setA m (e.efrom, e.eto) (capVal e)) m) ≤
      capSrcSum source m +
        (es.map (fun e => if e.efrom = source then capVal e else 0)).sum := by
  intro es
  induction es with
  | nil =>
    intro m hnn _
    exact ⟨hnn, by simp⟩
  | cons e rest ih =>
    intro m hnn hposall
    have hce : 0 < capVal e := hposall e (List.mem_cons_self _ _)
    have hnn' : ∀ q ∈ setA m (e.efrom, e.eto) (capVal e), 0 ≤ q.2 := by
      intro q hq
      rcases mem_setA hq with hq | hq
      · exact hnn q hq
      · rw [hq]
        exact le_of_lt hce
    obtain ⟨a1, a2⟩ := ih (setA m (e.efrom, e.eto) (capVal e)) hnn'
      (fun x hx => hposall x (List.mem_cons_of_mem _ hx))
    rw [List.foldl_cons]
    refine ⟨a1, ?_⟩
    have h1 := capSrcSum_setA_le source m e.efrom e.eto (capVal e) hnn
    rw [List.map_cons, List.sum_cons]
    omega

/-- The initial residual graph: one empty row per node. -/
theorem emptyResidual_facts (nodes : List Nat) (source : Nat) :
    BuildPre nodes (nodes.map (fun n => (n, ([] : InnerMap)))) ∧
    Symm (nodes.map (fun n => (n, ([] : InnerMap)))) ∧
    sourceOut (nodes.map (fun n => (n, ([] : InnerMap)))) source = 0 := by
  have hval : ∀ p ∈ nodes.map (fun n => (n, ([] : InnerMap))), p.2 = [] := by
    intro p hp
    obtain ⟨n, _, hn⟩ := List.mem_map.1 hp
    rw [← hn]
  have hrow : ∀ u, (getA (nodes.map (fun n => (n, ([] : InnerMap)))) u).getD [] = [] := by
    intro u
    cases hg : getA (nodes.map (fun n => (n, ([] : InnerMap)))) u with
    | none => rfl
    | some inner =>
      rw [Option.getD_some]
      exact hval (u, inner) (mem_of_getA_eq_some hg)
  refine ⟨⟨?_, ?_, ?_, ?_⟩, ?_, ?_⟩
  · unfold keysA
    rw [List.map_map]
    exact List.map_id nodes
  · intro p hp
    rw [hval p hp]
    exact List.nodup_nil
  · intro p hp q hq
    rw [hval p hp] at hq
    simp at hq
  · intro p hp q hq
    rw [hval p hp] at hq
    simp at hq
  · intro u v h
    rw [hasIn_iff_mem_keys, hrow u] at h
    simp at h
  · show innerSum ((getA (nodes.map (fun n => (n, ([] : InnerMap)))) source).getD []) = 0
    rw [hrow source]
    rfl

/-- The residual graph `maxFlow` builds is well-formed, entrywise
non-negative, and its source row totals at most the capacity leaving the
source in the edge list. -/
theorem buildResidual_wf (g : GraphData) (source : Nat)
    (hnd : g.nodes.Nodup)
    (hends : ∀ e ∈ g.edges, e.efrom ∈ g.nodes ∧ e.eto ∈ g.nodes)
    (hpos : ∀ e ∈ g.edges, ∀ c, e.capacity = some c → 0 < c) :
    ResWF g.nodes (buildResidual g.nodes (buildCapacity g.edges)) ∧
    (∀ q ∈ (getA (buildResidual g.nodes (buildCapacity g.edges)) source).getD [],
      0 ≤ q.2) ∧
    sourceOut (buildResidual g.nodes (buildCapacity g.edges)) source ≤
      sourceCapSum g source := by
  have hcapmem : ∀ q ∈ buildCapacity g.edges,
      0 < q.2 ∧ q.1.1 ∈ g.nodes ∧ q.1.2 ∈ g.nodes := by
    intro q hq
    rcases buildCapacity_members g.edges [] q hq with hq | ⟨e, he, hq⟩
    · simp at hq
    · rw [hq]
      exact ⟨capVal_pos (hpos e he), (hends e he).1, (hends e he).2⟩
  obtain ⟨hpre0, hsymm0, hout0⟩ := emptyResidual_facts g.nodes source
  obtain ⟨hpre, hsymm, hout⟩ := buildFold_inv g.nodes source
    (buildCapacity g.edges) _ hcapmem hpre0 hsymm0
  rw [← buildResidual_eq] at hpre hsymm hout
  have hnnAll : ∀ q ∈ (getA (buildResidual g.nodes (buildCapacity g.edges))
      source).getD [], 0 ≤ q.2 := by
    intro q hq
    cases hg : getA (buildResidual g.nodes (buildCapacity g.edges)) source with
    | none => rw [hg] at hq; simp at hq
    | some inner =>
      rw [hg, Option.getD_some] at hq
      exact hpre.2.2.2 (source, inner) (mem_of_getA_eq_some hg) q hq
  refine ⟨⟨hpre.1, hnd, hpre.2.1, hpre.2.2.1, hsymm⟩, hnnAll, ?_⟩
  have hcap : capSrcSum source (buildCapacity g.edges) ≤ sourceCapSum g source := by
    have := capSrcSum_fold_le source g.edges []
      (by intro q hq; simp at hq)
      (fun e he => capVal_pos (hpos e he))
    unfold buildCapacity
    have h2 := this.2
    unfold capSrcSum at *
    simp only [List.map_nil, List.sum_nil, zero_add] at h2
    exact h2
  unfold capSrcSum at hcap
  omega

/-- C8: on a directed graph with positive integer capacities and distinct
source and sink present in the node set, `maxFlow` terminates — every
augmenting iteration strictly increases the accumulated flow by at least
1 (the bottleneck of a path of positive integer residuals), and the
returned flow value is bounded by the total capacity of the edges leaving
the source, because the flow plus the source's outgoing residual total is
invariant under augmentation. -/
theorem maxFlow_terminates_bounded (g : GraphData) (source sink : Nat)
    (hdir : g.isDirected = true)
    (hnd : g.nodes.Nodup)
    (hsrc : source ∈ g.nodes) (hsink : sink ∈ g.nodes)
    (hne : source ≠ sink)
    (hends : ∀ e ∈ g.edges, e.efrom ∈ g.nodes ∧ e.eto ∈ g.nodes)
    (hpos : ∀ e ∈ g.edges, ∀ c, e.capacity = some c → 0 < c) :
    (∀ rg : Residual, ResWF g.nodes rg →
      ∀ rg' f, ekStep rg source sink = .augmentPath rg' f → 1 ≤ f) ∧
    ∃ v : Int, maxFlow g source sink = some ((v : Int) : WithTop Int) ∧
      v ≤ sourceCapSum g source := by
  constructor
  · intro rg hwf rg' f hstep
    rcases ekStep_spec source sink hwf hsrc hne with h | ⟨rg'', f'', heq, hf1, _⟩
    · rw [hstep] at h
      exact EKOutcome.noConfusion h
    · rw [hstep] at heq
      injection heq with h1 h2
      rw [h2]
      exact hf1
  · obtain ⟨hwf, hnn, hbound⟩ := buildResidual_wf g source hnd hends hpos
    set rg0 := buildResidual g.nodes (buildCapacity g.edges) with hrg0
    obtain ⟨v, hv, hvle⟩ := ekLoop_spec source sink hsrc hne
      ((sourceOut rg0 source).toNat + 1) rg0 0 ((sourceOut rg0 source).toNat)
      hwf hnn (le_refl _) (Nat.lt_succ_self _)
    refine ⟨v, ?_, by omega⟩
    rw [maxFlow, if_neg (by rw [hdir]; exact Bool.noConfusion)]
    rw [show ((0 : Int) : WithTop Int) = (0 : WithTop Int) by norm_num] at hv
    exact hv

/-- The spec's max-flow test graph: the directed path `0 → 1 → 2 → 3`
with capacities 10, 5, 7. -/
def gFlowWitness : GraphData :=
  ⟨true, [(0, [1]), (1, [2]), (2, [3]), (3, [])],
    [⟨0, 1, some 10⟩, ⟨1, 2, some 5⟩, ⟨2, 3, some 7⟩]⟩

/-- Witness for C8 on the directed path `0 → 1 → 2 → 3` with capacities
10, 5, 7 (the spec's own max-flow test vector, value 5 ≤ 10). -/
theorem maxFlow_terminates_bounded_witness :
    (GraphData.isDirected gFlowWitness = true ∧
      (GraphData.nodes gFlowWitness).Nodup ∧
      0 ∈ GraphData.nodes gFlowWitness ∧ 3 ∈ GraphData.nodes gFlowWitness ∧
      (0 : Nat) ≠ 3 ∧
      (∀ e ∈ gFlowWitness.edges, e.efrom ∈ GraphData.nodes gFlowWitness ∧
        e.eto ∈ GraphData.nodes gFlowWitness) ∧
      (∀ e ∈ gFlowWitness.edges, ∀ c, e.capacity = some c → 0 < c)) ∧
    ((∀ rg : Residual, ResWF (GraphData.nodes gFlowWitness) rg →
      ∀ rg' f, ekStep rg 0 3 = .augmentPath rg' f → 1 ≤ f) ∧
    ∃ v : Int, maxFlow gFlowWitness 0 3 = some ((v : Int) : WithTop Int) ∧
      v ≤ sourceCapSum gFlowWitness 0) :=
  ⟨⟨rfl, by decide, by decide, by decide, by decide, by decide, by decide⟩,
    maxFlow_terminates_bounded gFlowWitness 0 3 rfl (by decide) (by decide)
      (by decide) (by decide) (by decide) (by decide)⟩

end VGP
